import Mathlib

/-!
Verification of the game-state engine of terminal-puyo (src/puyo.c).

The C program is shallowly embedded: the two parallel global grids
(board occupancy and board colour) become functions out of a finite
coordinate type; every mutating C function becomes a state-passing Lean
function that mirrors the source's loops and guards; C ints holding
coordinates become Int, counters that the program keeps non-negative
become Nat, the score stays Int; the double chain multiplier becomes an
exact rational (every value the program feeds it, 1 + 0.5*d with small d,
and every product n*100*mult are exactly representable doubles, so double
arithmetic and exact rational arithmetic agree on them), with the C cast
to int rendered as truncation toward zero.  The recursive flood fill
(dfs) and the unbounded while-loops are given explicit fuel; the fuel
amounts baked into the wrappers are proved sufficient below, so the
fuelled functions agree with the C loops on every state the loops
terminate on.
-/

/-- Playfield height in rows (HEIGHT in the source). -/
def HEIGHT : Nat := 20

/-- Playfield width in columns (WIDTH in the source). -/
def WIDTH : Nat := 10

/-- Side of the square local piece matrix (SIZE in the source). -/
def SIZE : Nat := 3

/-- A board coordinate: row (0 at the top) and column. -/
abbrev Pos : Type := Fin HEIGHT × Fin WIDTH

/-- Pointwise update of a grid function, the rendering of a single C
array store. -/
def upd {α : Type} (g : Pos → α) (p : Pos) (v : α) : Pos → α :=
  fun q => if q = p then v else g q

theorem upd_same {α : Type} (g : Pos → α) (p : Pos) (v : α) : upd g p v p = v := by
  simp [upd]

theorem upd_ne {α : Type} (g : Pos → α) (p q : Pos) (v : α) (h : q ≠ p) :
    upd g p v q = g q := by
  simp [upd, h]

/-- The session state the claims are about: the two global grids
`board` (occupancy) and `board_color`, plus the score / level / clears
counters. -/
structure GameState where
  occ : Pos → Bool
  col : Pos → Nat
  score : Int
  level : Nat
  clears : Nat

theorem gameStateExt (a b : GameState) (h1 : a.occ = b.occ) (h2 : a.col = b.col)
    (h3 : a.score = b.score) (h4 : a.level = b.level) (h5 : a.clears = b.clears) : a = b := by
  cases a; cases b; simp_all

instance : DecidableEq GameState := fun a b =>
  decidable_of_iff (a.occ = b.occ ∧ a.col = b.col ∧ a.score = b.score ∧
      a.level = b.level ∧ a.clears = b.clears)
    (by
      constructor
      · rintro ⟨h1, h2, h3, h4, h5⟩; exact gameStateExt a b h1 h2 h3 h4 h5
      · rintro rfl; exact ⟨rfl, rfl, rfl, rfl, rfl⟩)

/-- The C globals start zero-initialised: empty board, colour 0
everywhere, score 0, level 1, clears 0. -/
def initialState : GameState :=
  { occ := fun _ => false, col := fun _ => 0, score := 0, level := 1, clears := 0 }

/-- Read the occupancy grid at signed coordinates; in-bounds reads hit
the grid, anything else reads false (the C code only reads in bounds on
the paths the claims cover). -/
def occAtI (occ : Pos → Bool) (y x : Int) : Bool :=
  if h : 0 ≤ y ∧ y < (HEIGHT : Int) ∧ 0 ≤ x ∧ x < (WIDTH : Int) then
    occ (⟨y.toNat, by omega⟩, ⟨x.toNat, by omega⟩)
  else false

/-- A falling piece: the 3x3 shape matrix (nonzero = filled, as in the
C int matrix) and the parallel colour matrix. -/
structure Block where
  shape : Fin SIZE → Fin SIZE → Nat
  color : Fin SIZE → Fin SIZE → Nat

theorem blockExt (a b : Block) (h1 : a.shape = b.shape) (h2 : a.color = b.color) :
    a = b := by
  cases a; cases b; simp_all

instance : DecidableEq Block := fun a b =>
  decidable_of_iff (a.shape = b.shape ∧ a.color = b.color)
    (by
      constructor
      · rintro ⟨h1, h2⟩; exact blockExt a b h1 h2
      · rintro rfl; exact ⟨rfl, rfl⟩)

/-- isCorner from the source: the four corner cells of the 3x3 matrix. -/
def isCorner (y x : Fin SIZE) : Bool :=
  (decide (y.val = 0) && decide (x.val = 0)) || (decide (y.val = 0) && decide (x.val = 2)) ||
  (decide (y.val = 2) && decide (x.val = 0)) || (decide (y.val = 2) && decide (x.val = 2))

/-- makeBlock from the source, with the two rand() colour draws passed
in as parameters: a vertical domino in the middle column. -/
def makeBlock (c1 c2 : Nat) : Block :=
  { shape := fun y x => if y.val ≤ 1 ∧ x.val = 1 then 1 else 0,
    color := fun y x =>
      if y.val = 0 ∧ x.val = 1 then c1 else if y.val = 1 ∧ x.val = 1 then c2 else 0 }

/-- rotateRight from the source: clockwise rotation
t[y][x] = shape[SIZE-1-x][y] on non-corner cells, corners forced to 0,
applied to both matrices. -/
def rotateRight (b : Block) : Block :=
  { shape := fun y x =>
      if isCorner y x then 0
      else b.shape ⟨SIZE - 1 - x.val, by omega⟩ ⟨y.val, y.isLt⟩,
    color := fun y x =>
      if isCorner y x then 0
      else b.color ⟨SIZE - 1 - x.val, by omega⟩ ⟨y.val, y.isLt⟩ }

/-- rotateLeft from the source: counter-clockwise rotation
t[y][x] = shape[x][SIZE-1-y] on non-corner cells, corners forced to 0. -/
def rotateLeft (b : Block) : Block :=
  { shape := fun y x =>
      if isCorner y x then 0
      else b.shape ⟨x.val, x.isLt⟩ ⟨SIZE - 1 - y.val, by omega⟩,
    color := fun y x =>
      if isCorner y x then 0
      else b.color ⟨x.val, x.isLt⟩ ⟨SIZE - 1 - y.val, by omega⟩ }

/-- The per-cell test inside checkCollision: out of columns, below the
floor, or an in-board occupied cell.  Mirrors the two C ifs; the board
read happens exactly when the bounds checks passed, so the guarded read
`occAtI` coincides with the C array access there. -/
def cellBlocked (occ : Pos → Bool) (gx gy : Int) : Bool :=
  (decide (gx < 0) || decide ((WIDTH : Int) ≤ gx) || decide ((HEIGHT : Int) ≤ gy)) ||
  (decide (0 ≤ gy) && occAtI occ gy gx)

/-- checkCollision from the source: some occupied local cell of the
piece, placed with its 3x3 top-left at (nx, ny), is blocked. -/
def checkCollision (occ : Pos → Bool) (b : Block) (nx ny : Int) : Bool :=
  (List.finRange SIZE).any fun y =>
    (List.finRange SIZE).any fun x =>
      decide (b.shape y x ≠ 0) && cellBlocked occ (nx + x.val) (ny + y.val)

/-- The fixed kick offsets tried by attemptRotation, in source order. -/
def kickOffsets : List (Int × Int) := [(0, 0), (-1, 0), (1, 0), (0, -1), (-1, -1), (1, -1)]

/-- The offset search loop inside attemptRotation: the first offset in
the list at which the rotated piece does not collide. -/
def tryOffsets (occ : Pos → Bool) (rot : Block) (nx ny : Int) :
    List (Int × Int) → Option (Int × Int)
  | [] => none
  | o :: rest =>
      if checkCollision occ rot (nx + o.1) (ny + o.2) = false then some (nx + o.1, ny + o.2)
      else tryOffsets occ rot nx ny rest

/-- attemptRotation from the source.  Returns (success, new x, new y,
new current piece): on the first non-colliding offset the position is
moved by it and the active piece becomes the rotated one; if all six
offsets collide nothing changes. -/
def attemptRotation (occ : Pos → Bool) (rot : Block) (nx ny : Int) (cur : Block) :
    Bool × Int × Int × Block :=
  match tryOffsets occ rot nx ny kickOffsets with
  | some (tx, ty) => (true, tx, ty, rot)
  | none => (false, nx, ny, cur)

/-- All 3x3 local coordinates in the source's loop order. -/
def localCells : List (Fin SIZE × Fin SIZE) :=
  (List.finRange SIZE).flatMap fun y => (List.finRange SIZE).map fun x => (y, x)

/-- One cell of the placeBlock loop: an occupied local cell whose board
coordinates are in bounds is written into both grids. -/
def placeStep (b : Block) (bx byy : Int) (acc : GameState) (yx : Fin SIZE × Fin SIZE) :
    GameState :=
  if b.shape yx.1 yx.2 ≠ 0 then
    if h : 0 ≤ byy + (yx.1.val : Int) ∧ byy + (yx.1.val : Int) < (HEIGHT : Int) ∧
        0 ≤ bx + (yx.2.val : Int) ∧ bx + (yx.2.val : Int) < (WIDTH : Int) then
      { acc with
        occ := upd acc.occ (⟨(byy + (yx.1.val : Int)).toNat, by omega⟩,
          ⟨(bx + (yx.2.val : Int)).toNat, by omega⟩) true,
        col := upd acc.col (⟨(byy + (yx.1.val : Int)).toNat, by omega⟩,
          ⟨(bx + (yx.2.val : Int)).toNat, by omega⟩) (b.color yx.1 yx.2) }
    else acc
  else acc

/-- placeBlock from the source: write every occupied, in-bounds cell of
the piece into the occupancy and colour grids. -/
def placeBlock (st : GameState) (b : Block) (bx byy : Int) : GameState :=
  localCells.foldl (placeStep b bx byy) st

/-- The per-cell drop loop of drawGhost: descend while the cell
immediately below is inside the board and empty. -/
def ghostRow (occ : Pos → Bool) (gx : Int) (gy : Int) : Int :=
  if h : gy + 1 < (HEIGHT : Int) ∧ occAtI occ (gy + 1) gx = false then
    ghostRow occ gx (gy + 1)
  else gy
termination_by ((HEIGHT : Int) - gy).toNat
decreasing_by
  omega

/-- The landing loop inside gravityFailSafe, with explicit structural
fuel (the wrapper passes enough for any start row): from row y, fall
while the cell below (in the grid being read) is inside the board and
empty. -/
def fallRowA (occ : Pos → Bool) (x : Fin WIDTH) : Nat → Fin HEIGHT → Fin HEIGHT
  | 0, y => y
  | n + 1, y =>
      if h : y.val + 1 < HEIGHT then
        if occ (⟨y.val + 1, h⟩, x) = false then fallRowA occ x n ⟨y.val + 1, h⟩ else y
      else y

/-- The landing loop of gravityFailSafe; HEIGHT steps of fuel always
cover the at most HEIGHT-1 downward moves. -/
def fallRowF (occ : Pos → Bool) (x : Fin WIDTH) (y : Fin HEIGHT) : Fin HEIGHT :=
  fallRowA occ x HEIGHT y

/-- Where the occupied cell p lands under one gravityFailSafe pass that
reads the grid occ. -/
def landPos (occ : Pos → Bool) (p : Pos) : Pos := (fallRowF occ p.2 p.1, p.2)

/-- The accumulator threaded through the gravityFailSafe scan: the moved
flag and the two tmp buffers. -/
structure GravAcc where
  moved : Bool
  occ : Pos → Bool
  col : Pos → Nat

/-- One cell of the gravityFailSafe scan: an occupied source cell is
copied to its landing position in the tmp buffers; landing away from the
source raises the moved flag. -/
def gravStep (occ0 : Pos → Bool) (col0 : Pos → Nat) (a : GravAcc) (p : Pos) : GravAcc :=
  if occ0 p = true then
    let q := landPos occ0 p
    { moved := a.moved || decide (q ≠ p), occ := upd a.occ q true, col := upd a.col q (col0 p) }
  else a

/-- The source's scan order for gravityFailSafe: rows from the bottom
up, columns left to right. -/
def rowsBottomUp : List Pos :=
  (List.finRange HEIGHT).reverse.flatMap fun y => (List.finRange WIDTH).map fun x => (y, x)

/-- The gravityFailSafe scan: fold the per-cell drop over the board in
the source's bottom-up order, starting from zeroed tmp buffers. -/
def gravityAux (st : GameState) : GravAcc :=
  rowsBottomUp.foldl (gravStep st.occ st.col) ⟨false, fun _ => false, fun _ => 0⟩

/-- gravityFailSafe from the source: every occupied cell is dropped to
its lowest stable position (computed against the unmodified input grid)
into fresh tmp buffers, which then replace the grids; returns whether
any cell moved. -/
def gravityFailSafe (st : GameState) : Bool × GameState :=
  ((gravityAux st).moved, { st with occ := (gravityAux st).occ, col := (gravityAux st).col })

/-- Fuelled form of gravity() (and of the board effect of
animateGravity): repeat gravityFailSafe while it reports movement. -/
def gravityFuel : Nat → GameState → GameState
  | 0, st => st
  | n + 1, st =>
      let r := gravityFailSafe st
      if r.1 = true then gravityFuel n r.2 else r.2

/-- Fuel that is always sufficient for gravity: the potential used in
the sufficiency proof is at most HEIGHT*WIDTH*HEIGHT. -/
def GRAVITYFUEL : Nat := HEIGHT * WIDTH * HEIGHT + 1

/-- gravity() from the source. -/
def gravity (st : GameState) : GameState := gravityFuel GRAVITYFUEL st

/-- The state the recursive dfs threads: the global visited map and the
coords array (with count = list length). -/
structure DfsSt where
  visited : Pos → Bool
  coords : List Pos

/-- The dfs bounds check: the signed coordinates name a board cell. -/
def inb (y x : Int) : Prop :=
  0 ≤ y ∧ y < (HEIGHT : Int) ∧ 0 ≤ x ∧ x < (WIDTH : Int)

instance (y x : Int) : Decidable (inb y x) := by
  unfold inb; infer_instance

/-- The board cell named by in-bounds signed coordinates. -/
def mkPos (y x : Int) (h : inb y x) : Pos :=
  (⟨y.toNat, by obtain ⟨h1, h2, h3, h4⟩ := h; omega⟩,
   ⟨x.toNat, by obtain ⟨h1, h2, h3, h4⟩ := h; omega⟩)

/-- dfs from the source: depth-first flood fill collecting the
connected group of colour c around (y, x); out-of-bounds, empty,
wrong-colour or already-visited cells contribute nothing.  The C
recursion is unbounded; here it carries fuel, and the wrapper's fuel is
proved sufficient (dfsRun below). -/
def dfs (occ : Pos → Bool) (col : Pos → Nat) (c : Nat) :
    Nat → Int → Int → DfsSt → DfsSt
  | 0, _, _, st => st
  | fuel + 1, y, x, st =>
      if h : inb y x then
        let p : Pos := mkPos y x h
        if occ p = false ∨ col p ≠ c ∨ st.visited p = true then st
        else
          let st1 : DfsSt := ⟨upd st.visited p true, st.coords ++ [p]⟩
          let st2 := dfs occ col c fuel (y + 1) x st1
          let st3 := dfs occ col c fuel (y - 1) x st2
          let st4 := dfs occ col c fuel y (x + 1) st3
          dfs occ col c fuel y (x - 1) st4
      else st

/-- Fuel sufficient for every dfs run: one more than the number of
cells on the board. -/
def DFSFUEL : Nat := HEIGHT * WIDTH + 1

/-- The C cast (int)q for the nonnegative values the program produces:
truncation toward zero. -/
def ctrunc (q : ℚ) : Int := if q < 0 then -Int.floor (-q) else Int.floor q

/-- The removal loop inside clearGroups: zero the occupancy and colour
of every collected cell. -/
def removeCells (occ : Pos → Bool) (col : Pos → Nat) :
    List Pos → (Pos → Bool) × (Pos → Nat)
  | [] => (occ, col)
  | p :: rest => removeCells (upd occ p false) (upd col p 0) rest

/-- The accumulator of the clearGroups board scan. -/
structure ClearAcc where
  occ : Pos → Bool
  col : Pos → Nat
  visited : Pos → Bool
  score : Int
  total : Nat
  groups : Nat

/-- One cell of the clearGroups scan: an occupied, unvisited cell
starts a dfs; a group of 4 or more is removed from the grids, scored
with the chain multiplier (C truncates the double product to int), and
counted. -/
def clearStep (mult : ℚ) (acc : ClearAcc) (p : Pos) : ClearAcc :=
  if acc.occ p = true ∧ acc.visited p = false then
    let c := acc.col p
    let res := dfs acc.occ acc.col c DFSFUEL ((p.1.val : Int)) ((p.2.val : Int)) ⟨acc.visited, []⟩
    let cnt := res.coords.length
    if 4 ≤ cnt then
      let g := removeCells acc.occ acc.col res.coords
      { occ := g.1, col := g.2, visited := res.visited,
        score := acc.score + ctrunc ((cnt : ℚ) * 100 * mult),
        total := acc.total + cnt, groups := acc.groups + 1 }
    else { acc with visited := res.visited }
  else acc

/-- The source's row-major scan order over the whole board. -/
def allPositions : List Pos :=
  (List.finRange HEIGHT).flatMap fun y => (List.finRange WIDTH).map fun x => (y, x)

/-- The board scan of clearGroups: fold clearStep over the whole board
in row-major order, starting from the current grids with a fresh
visited map (the memset in the source). -/
def clearGroupsAux (mult : ℚ) (st : GameState) : ClearAcc :=
  allPositions.foldl (clearStep mult) ⟨st.occ, st.col, fun _ => false, st.score, 0, 0⟩

/-- clearGroups from the source: scan the board row-major, flood-fill
every unvisited occupied cell, remove and score groups of size >= 4,
then bump clears and (at most once) the level.  Returns the number of
cells cleared together with the new state. -/
def clearGroups (mult : ℚ) (st : GameState) : Nat × GameState :=
  ((clearGroupsAux mult st).total,
   { occ := (clearGroupsAux mult st).occ,
     col := (clearGroupsAux mult st).col,
     score := (clearGroupsAux mult st).score,
     level :=
       if 0 < (clearGroupsAux mult st).groups ∧
           st.level ≤ (if 0 < (clearGroupsAux mult st).groups then
             st.clears + (clearGroupsAux mult st).groups else st.clears) / 5
       then st.level + 1 else st.level,
     clears :=
       if 0 < (clearGroupsAux mult st).groups then
         st.clears + (clearGroupsAux mult st).groups else st.clears })

/-- The hardDrop loop with explicit fuel: step the piece down while the
row below is collision-free.  The C loop is unbounded (it would not
terminate on a piece with no occupied cell); the wrapper's fuel is
proved sufficient for every piece with an occupied cell. -/
def hardDropF (occ : Pos → Bool) (b : Block) (cx : Int) : Nat → Int → Int
  | 0, cy => cy
  | n + 1, cy =>
      if checkCollision occ b cx (cy + 1) = false then hardDropF occ b cx n (cy + 1) else cy

/-- hardDrop from the source: the final row of the while loop. -/
def hardDrop (occ : Pos → Bool) (b : Block) (cx cy : Int) : Int :=
  hardDropF occ b cx (((HEIGHT : Int) + 1 - cy).toNat) cy

/-- The inner cascade loop of lock_and_cascade: clear with the current
chain multiplier; stop on a zero clear, otherwise bump the chain, apply
full gravity (the board effect of animateGravity) and repeat. -/
def innerLoop : Nat → Nat → GameState → Nat × GameState
  | 0, chain, st => (chain, st)
  | n + 1, chain, st =>
      let r := clearGroups (1 + (chain : ℚ) / 2) st
      if r.1 = 0 then (chain, r.2)
      else innerLoop n (chain + 1) (gravity r.2)

/-- Fuel sufficient for the inner cascade loop on every state. -/
def INNERFUEL : Nat := HEIGHT * WIDTH + 1

/-- The outer cascade loop of lock_and_cascade: run the inner loop,
apply gravity, and repeat while the inner loop cleared anything. -/
def outerLoop : Nat → Nat → GameState → Nat × GameState
  | 0, chain, st => (chain, st)
  | n + 1, chain, st =>
      let r := innerLoop INNERFUEL chain st
      let st2 := gravity r.2
      if r.1 = chain then (r.1, st2) else outerLoop n r.1 st2

/-- Fuel sufficient for the outer cascade loop on every state. -/
def OUTERFUEL : Nat := HEIGHT * WIDTH + 2

/-- What lock_and_cascade leaves behind: the new session state, the
spawned active piece and its spawn position, the preview piece, the
chain depth this lock produced, and whether the game-over branch
(immediate collision of the spawned piece) fires. -/
structure LockResult where
  state : GameState
  current : Block
  cx : Int
  cy : Int
  next : Block
  chain : Nat
  gameOver : Bool

/-- lock_and_cascade from the source, with the piece pair passed
explicitly and the rand()-generated replacement preview piece as a
parameter: lock the active piece into the board, spawn (active <- next,
next <- fresh, origin to WIDTH/2-1, 0), run the cascade loops, and
check the spawned piece for immediate collision (the game-over exit). -/
def lockAndCascade (st : GameState) (cur : Block) (cx cy : Int) (nxt newNext : Block) :
    LockResult :=
  let st1 := placeBlock st cur cx cy
  let ncx : Int := (WIDTH : Int) / 2 - 1
  let ncy : Int := 0
  let r := outerLoop OUTERFUEL 0 st1
  { state := r.2, current := nxt, cx := ncx, cy := ncy, next := newNext, chain := r.1,
    gameOver := checkCollision r.2.occ nxt ncx ncy }

/-! ## Connected groups, as the spec describes them

A group (glossary of the spec) is a maximal 4-directionally-connected
set of same-coloured occupied cells.  `reaches` is the transparent
mathematical notion: reflexive-transitive closure of single
4-neighbour steps through occupied cells of the given colour.  `comp`
computes the same set by iterating a one-step growth to its fixed
point; mem_comp proves the two agree, which both makes component
membership decidable (for concrete evaluations) and keeps the theorems
tied to the textbook notion. -/

/-- 4-directional adjacency of two board cells. -/
def adjacent (a b : Pos) : Prop :=
  (a.2 = b.2 ∧ (a.1.val + 1 = b.1.val ∨ b.1.val + 1 = a.1.val)) ∨
  (a.1 = b.1 ∧ (a.2.val + 1 = b.2.val ∨ b.2.val + 1 = a.2.val))

instance (a b : Pos) : Decidable (adjacent a b) := by
  unfold adjacent; infer_instance

theorem adjacent_symm {a b : Pos} (h : adjacent a b) : adjacent b a := by
  rcases h with ⟨h1, h2⟩ | ⟨h1, h2⟩
  · exact Or.inl ⟨h1.symm, h2.symm⟩
  · exact Or.inr ⟨h1.symm, h2.symm⟩

/-- One flood-fill step: move to an adjacent occupied cell of colour c. -/
def groupStep (st : GameState) (c : Nat) (a b : Pos) : Prop :=
  adjacent a b ∧ st.occ b = true ∧ st.col b = c

/-- Connectivity through occupied cells of colour c: the spec's
4-directional connectedness. -/
def reaches (st : GameState) (c : Nat) : Pos → Pos → Prop :=
  Relation.ReflTransGen (groupStep st c)

/-- Whether a cell is occupied with colour c (executable). -/
def okCell (st : GameState) (c : Nat) (q : Pos) : Bool :=
  st.occ q && decide (st.col q = c)

theorem okCell_iff (st : GameState) (c : Nat) (q : Pos) :
    okCell st c q = true ↔ (st.occ q = true ∧ st.col q = c) := by
  simp [okCell]

/-- Grow a cell set once by 4-neighbour steps into matching cells. -/
def growOnce (ok : Pos → Bool) (s : Finset Pos) : Finset Pos :=
  s ∪ Finset.univ.filter (fun q => ok q = true ∧ ∃ a ∈ s, adjacent a q)

theorem subset_growOnce (ok : Pos → Bool) (s : Finset Pos) : s ⊆ growOnce ok s :=
  Finset.subset_union_left

/-- Iterate the growth step, stopping at a fixed point. -/
def closureIter (ok : Pos → Bool) : Nat → Finset Pos → Finset Pos
  | 0, s => s
  | n + 1, s => if growOnce ok s = s then s else closureIter ok n (growOnce ok s)

/-- The connected component of p through cells accepted by ok. -/
def closureFrom (ok : Pos → Bool) (p : Pos) : Finset Pos :=
  closureIter ok (HEIGHT * WIDTH) {p}

/-- The group containing p (meaningful when p is occupied): the maximal
4-connected set of cells of p's colour around p. -/
def comp (st : GameState) (p : Pos) : Finset Pos :=
  closureFrom (okCell st (st.col p)) p

theorem subset_closureIter (ok : Pos → Bool) :
    ∀ (n : Nat) (s : Finset Pos), s ⊆ closureIter ok n s := by
  intro n
  induction n with
  | zero => intro s; exact le_refl s
  | succ n ih =>
      intro s
      by_cases h : growOnce ok s = s
      · simp [closureIter, h]
      · simp only [closureIter, h, if_false]
        exact (subset_growOnce ok s).trans (ih (growOnce ok s))

theorem closureIter_closed (ok : Pos → Bool) :
    ∀ (n : Nat) (s : Finset Pos), Fintype.card Pos ≤ n + s.card →
      growOnce ok (closureIter ok n s) = closureIter ok n s := by
  intro n
  induction n with
  | zero =>
      intro s hs
      have hcard : s.card = Fintype.card Pos :=
        le_antisymm (Finset.card_le_univ s) (by simpa using hs)
      have huniv : s = Finset.univ := Finset.eq_univ_of_card s hcard
      simp only [closureIter, huniv, growOnce]
      exact Finset.union_eq_left.2 (Finset.subset_univ _)
  | succ n ih =>
      intro s hs
      by_cases h : growOnce ok s = s
      · simp [closureIter, h]
      · simp only [closureIter, h, if_false]
        apply ih
        have hss : s ⊂ growOnce ok s := (Finset.ssubset_iff_subset_ne).2 ⟨subset_growOnce ok s, fun he => h he.symm⟩
        have := Finset.card_lt_card hss
        omega

theorem closureIter_sound (ok : Pos → Bool) (P : Pos → Prop)
    (hstep : ∀ q : Pos, ok q = true → (∃ a, P a ∧ adjacent a q) → P q) :
    ∀ (n : Nat) (s : Finset Pos), (∀ a ∈ s, P a) → ∀ q ∈ closureIter ok n s, P q := by
  intro n
  induction n with
  | zero => intro s hbase q hq; exact hbase q hq
  | succ n ih =>
      intro s hbase q hq
      by_cases h : growOnce ok s = s
      · simp only [closureIter, h, if_pos] at hq
        exact hbase q hq
      · simp only [closureIter, h, if_false] at hq
        refine ih (growOnce ok s) ?_ q hq
        intro a ha
        rcases Finset.mem_union.1 ha with ha | ha
        · exact hbase a ha
        · rcases Finset.mem_filter.1 ha with ⟨-, hok, b, hb, hadj⟩
          exact hstep a hok ⟨b, hbase b hb, hadj⟩

theorem closed_mem_of_reaches (st : GameState) (c : Nat) (T : Finset Pos)
    (hT : growOnce (okCell st c) T = T) {p q : Pos} (hp : p ∈ T)
    (h : reaches st c p q) : q ∈ T := by
  induction h with
  | refl => exact hp
  | tail _ hstep ih =>
      rename_i a b hab
      rw [← hT]
      apply Finset.mem_union_right
      refine Finset.mem_filter.2 ⟨Finset.mem_univ _, ?_, a, ih, hstep.1⟩
      exact (okCell_iff st c b).2 ⟨hstep.2.1, hstep.2.2⟩

theorem card_pos_type : Fintype.card Pos = HEIGHT * WIDTH := by
  simp [Fintype.card_prod]

/-- Membership in the computed component coincides with the spec's
connectivity notion. -/
theorem mem_comp (st : GameState) (p q : Pos) :
    q ∈ comp st p ↔ reaches st (st.col p) p q := by
  constructor
  · intro hq
    refine closureIter_sound (okCell st (st.col p)) (reaches st (st.col p) p) ?_
      (HEIGHT * WIDTH) {p} ?_ q hq
    · intro r hok ⟨a, ha, hadj⟩
      rcases (okCell_iff st (st.col p) r).1 hok with ⟨h1, h2⟩
      exact Relation.ReflTransGen.tail ha ⟨hadj, h1, h2⟩
    · intro a ha
      rcases Finset.mem_singleton.1 ha with rfl
      exact Relation.ReflTransGen.refl
  · intro h
    refine closed_mem_of_reaches st (st.col p) (closureFrom (okCell st (st.col p)) p) ?_ ?_ h
    · apply closureIter_closed
      rw [card_pos_type]
      simp
    · exact subset_closureIter _ _ {p} (Finset.mem_singleton_self p)

theorem comp_self (st : GameState) (p : Pos) : p ∈ comp st p :=
  (mem_comp st p p).2 Relation.ReflTransGen.refl

theorem reaches_elim (st : GameState) (c : Nat) {p q : Pos} (h : reaches st c p q) :
    q = p ∨ (st.occ q = true ∧ st.col q = c) := by
  rcases (Relation.ReflTransGen.cases_tail h) with h | ⟨a, _, hstep⟩
  · exact Or.inl h
  · exact Or.inr ⟨hstep.2.1, hstep.2.2⟩

theorem comp_occ (st : GameState) {p q : Pos} (hp : st.occ p = true)
    (hq : q ∈ comp st p) : st.occ q = true ∧ st.col q = st.col p := by
  rcases reaches_elim st (st.col p) ((mem_comp st p q).1 hq) with rfl | h
  · exact ⟨hp, rfl⟩
  · exact h

theorem reaches_symm (st : GameState) (c : Nat) {p q : Pos}
    (hp : st.occ p = true) (hpc : st.col p = c) (h : reaches st c p q) :
    reaches st c q p := by
  induction h with
  | refl => exact Relation.ReflTransGen.refl
  | tail hra hstep ih =>
      rename_i a b
      have ha : st.occ a = true ∧ st.col a = c := by
        rcases reaches_elim st c hra with rfl | h
        · exact ⟨hp, hpc⟩
        · exact h
      exact Relation.ReflTransGen.head ⟨adjacent_symm hstep.1, ha.1, ha.2⟩ ih

theorem comp_eq_of_mem (st : GameState) {p q : Pos} (hp : st.occ p = true)
    (hq : q ∈ comp st p) : comp st q = comp st p := by
  have hcq : st.occ q = true ∧ st.col q = st.col p := comp_occ st hp hq
  have hreach : reaches st (st.col p) p q := (mem_comp st p q).1 hq
  have hback : reaches st (st.col p) q p := reaches_symm st (st.col p) hp rfl hreach
  ext r
  rw [mem_comp, mem_comp, hcq.2]
  constructor
  · intro h; exact hreach.trans h
  · intro h; exact hback.trans h

theorem comp_closed (st : GameState) {p q r : Pos} (hq : q ∈ comp st p)
    (hadj : adjacent q r) (hocc : st.occ r = true) (hcol : st.col r = st.col p) :
    r ∈ comp st p := by
  exact (mem_comp st p r).2 (Relation.ReflTransGen.tail ((mem_comp st p q).1 hq) ⟨hadj, hocc, hcol⟩)

/-- A cell lies in a clearable (size >= 4) group. -/
def bigAt (st : GameState) (r : Pos) : Prop :=
  st.occ r = true ∧ 4 ≤ (comp st r).card

instance (st : GameState) (r : Pos) : Decidable (bigAt st r) := by
  unfold bigAt; infer_instance

/-- The set of clearable groups of the board: the distinct components
of size >= 4. -/
def bigComps (st : GameState) : Finset (Finset Pos) :=
  (Finset.univ.filter (fun q => st.occ q = true ∧ 4 ≤ (comp st q).card)).image (comp st)

/-- Number of occupied cells of the board. -/
def occCount (st : GameState) : Nat :=
  (Finset.univ.filter (fun p => st.occ p = true)).card

/-! ## Collision characterisation (C4) and hard drop (C10) -/

theorem checkCollision_iff (occ : Pos → Bool) (b : Block) (nx ny : Int) :
    checkCollision occ b nx ny = true ↔
      ∃ y x : Fin SIZE, b.shape y x ≠ 0 ∧
        (nx + x.val < 0 ∨ (WIDTH : Int) ≤ nx + x.val ∨ (HEIGHT : Int) ≤ ny + y.val ∨
         (0 ≤ ny + y.val ∧ occAtI occ (ny + y.val) (nx + x.val) = true)) := by
  simp [checkCollision, cellBlocked, List.any_eq_true, List.mem_finRange,
    Bool.or_eq_true, Bool.and_eq_true, decide_eq_true_eq]
  exact exists_congr fun y => exists_congr fun x => and_congr_right fun _ => by tauto

/-- C4.  checkCollision(piece, nx, ny) reports a collision exactly when
some occupied local cell maps to a column outside [0, WIDTH), or to a
row at or below the floor (row >= HEIGHT), or to a non-negative row
whose grid cell is occupied; cells mapping to rows above the visible
top (row < 0, with an in-range column) never collide. -/
theorem c4_checkCollision_characterisation (occ : Pos → Bool) (b : Block) (nx ny : Int) :
    checkCollision occ b nx ny = true ↔
      ∃ y x : Fin SIZE, b.shape y x ≠ 0 ∧
        (nx + x.val < 0 ∨ (WIDTH : Int) ≤ nx + x.val ∨ (HEIGHT : Int) ≤ ny + y.val ∨
         (0 ≤ ny + y.val ∧ occAtI occ (ny + y.val) (nx + x.val) = true)) :=
  checkCollision_iff occ b nx ny

theorem checkCollision_of_floor (occ : Pos → Bool) (b : Block) (nx ny : Int)
    (hb : ∃ y x : Fin SIZE, b.shape y x ≠ 0) (h : (HEIGHT : Int) ≤ ny) :
    checkCollision occ b nx ny = true := by
  obtain ⟨y, x, hs⟩ := hb
  rw [checkCollision_iff]
  refine ⟨y, x, hs, Or.inr (Or.inr (Or.inl ?_))⟩
  have hy : (0 : Int) ≤ (y.val : Int) := Int.natCast_nonneg _
  omega

theorem hardDropF_spec (occ : Pos → Bool) (b : Block) (cx : Int)
    (hb : ∃ y x : Fin SIZE, b.shape y x ≠ 0) :
    ∀ (n : Nat) (cy : Int), ((HEIGHT : Int) - 1 - cy).toNat < n →
      cy ≤ hardDropF occ b cx n cy ∧
      checkCollision occ b cx (hardDropF occ b cx n cy + 1) = true ∧
      (∀ k : Int, cy ≤ k → k < hardDropF occ b cx n cy →
        checkCollision occ b cx (k + 1) = false) ∧
      (∀ m : Nat, n ≤ m → hardDropF occ b cx m cy = hardDropF occ b cx n cy) := by
  intro n
  induction n with
  | zero => intro cy hn; omega
  | succ n ih =>
      intro cy hn
      cases hE : checkCollision occ b cx (cy + 1) with
      | false =>
          have hnotfloor : ¬ ((HEIGHT : Int) ≤ cy + 1) := by
            intro hh
            have := checkCollision_of_floor occ b cx (cy + 1) hb hh
            rw [hE] at this
            exact Bool.false_ne_true this
          have hrec := ih (cy + 1) (by omega)
          have heq : hardDropF occ b cx (n + 1) cy = hardDropF occ b cx n (cy + 1) := by
            simp [hardDropF, hE]
          refine ⟨?_, ?_, ?_, ?_⟩
          · rw [heq]; have := hrec.1; omega
          · rw [heq]; exact hrec.2.1
          · intro k h1 h2
            rw [heq] at h2
            by_cases hk : k = cy
            · subst hk; exact hE
            · exact hrec.2.2.1 k (by omega) h2
          · intro m hm
            obtain ⟨m1, rfl⟩ : ∃ m1, m = m1 + 1 := ⟨m - 1, by omega⟩
            have h1 : hardDropF occ b cx (m1 + 1) cy = hardDropF occ b cx m1 (cy + 1) := by
              simp [hardDropF, hE]
            rw [h1, heq]
            exact hrec.2.2.2 m1 (by omega)
      | true =>
          have heq : hardDropF occ b cx (n + 1) cy = cy := by
            simp [hardDropF, hE]
          refine ⟨by rw [heq], by rw [heq]; exact hE, ?_, ?_⟩
          · intro k h1 h2; rw [heq] at h2; omega
          · intro m hm
            obtain ⟨m1, rfl⟩ : ∃ m1, m = m1 + 1 := ⟨m - 1, by omega⟩
            rw [heq]
            simp [hardDropF, hE]

/-- C10.  For a piece with at least one occupied cell, the hardDrop
loop terminates from every start: with the baked-in fuel (or any
larger fuel, the termination statement) it reaches a row r >= cy at
which moving one further row down collides, and every intermediate row
was collision-free; the board and the column are untouched (hardDrop
only returns the new row). -/
theorem c10_hardDrop_terminates (occ : Pos → Bool) (b : Block) (cx cy : Int)
    (hb : ∃ y x : Fin SIZE, b.shape y x ≠ 0) :
    cy ≤ hardDrop occ b cx cy ∧
    checkCollision occ b cx (hardDrop occ b cx cy + 1) = true ∧
    (∀ k : Int, cy ≤ k → k < hardDrop occ b cx cy →
      checkCollision occ b cx (k + 1) = false) ∧
    (∀ m : Nat, ((HEIGHT : Int) + 1 - cy).toNat ≤ m →
      hardDropF occ b cx m cy = hardDrop occ b cx cy) := by
  by_cases hcy : cy ≤ (HEIGHT : Int)
  · have hfuel : ((HEIGHT : Int) - 1 - cy).toNat < ((HEIGHT : Int) + 1 - cy).toNat := by omega
    have h := hardDropF_spec occ b cx hb (((HEIGHT : Int) + 1 - cy).toNat) cy hfuel
    exact ⟨h.1, h.2.1, h.2.2.1, fun m hm => h.2.2.2 m hm⟩
  · have hfuel0 : ((HEIGHT : Int) + 1 - cy).toNat = 0 := by omega
    have hdef : hardDrop occ b cx cy = cy := by
      unfold hardDrop
      rw [hfuel0]
      rfl
    have hcoll : checkCollision occ b cx (cy + 1) = true :=
      checkCollision_of_floor occ b cx (cy + 1) hb (by omega)
    refine ⟨by rw [hdef], by rw [hdef]; exact hcoll, ?_, ?_⟩
    · intro k h1 h2; rw [hdef] at h2; omega
    · intro m hm
      rw [hdef]
      cases m with
      | zero => rfl
      | succ m1 => simp [hardDropF, hcoll]

theorem c10_witness :
    (∃ y x : Fin SIZE, (makeBlock 1 2).shape y x ≠ 0) ∧
    checkCollision (fun _ => false) (makeBlock 1 2) 4
      (hardDrop (fun _ => false) (makeBlock 1 2) 4 0 + 1) = true :=
  ⟨by decide, (c10_hardDrop_terminates (fun _ => false) (makeBlock 1 2) 4 0 (by decide)).2.1⟩

/-! ## Rotation kick resolution (C5) -/

theorem tryOffsets_none (occ : Pos → Bool) (rot : Block) (nx ny : Int) :
    ∀ l : List (Int × Int),
      (∀ o ∈ l, checkCollision occ rot (nx + o.1) (ny + o.2) = true) →
      tryOffsets occ rot nx ny l = none := by
  intro l
  induction l with
  | nil => intro _; rfl
  | cons o rest ih =>
      intro hall
      have h0 : checkCollision occ rot (nx + o.1) (ny + o.2) = true :=
        hall o (List.mem_cons_self o rest)
      simp only [tryOffsets, h0]
      simp only [Bool.true_eq_false, if_false]
      exact ih fun o ho => hall o (List.mem_cons_of_mem _ ho)

theorem tryOffsets_first (occ : Pos → Bool) (rot : Block) (nx ny : Int) :
    ∀ (l : List (Int × Int)) (i : Fin l.length),
      (∀ j : Fin l.length, j.val < i.val →
        checkCollision occ rot (nx + (l.get j).1) (ny + (l.get j).2) = true) →
      checkCollision occ rot (nx + (l.get i).1) (ny + (l.get i).2) = false →
      tryOffsets occ rot nx ny l = some (nx + (l.get i).1, ny + (l.get i).2) := by
  intro l
  induction l with
  | nil => intro i; exact absurd i.isLt (by simp)
  | cons o rest ih =>
      intro i hprior hfree
      rcases Fin.eq_zero_or_eq_succ i with rfl | ⟨i1, rfl⟩
      · simp only [List.get] at hfree ⊢
        simp only [tryOffsets, hfree, if_pos]
      · have h0 : checkCollision occ rot (nx + o.1) (ny + o.2) = true := by
          have := hprior ⟨0, by simp⟩ (by simp)
          simpa using this
        simp only [tryOffsets, h0, Bool.true_eq_false, if_false]
        have hfree1 : checkCollision occ rot (nx + (rest.get i1).1) (ny + (rest.get i1).2) = false := by
          simpa using hfree
        refine (ih i1 ?_ hfree1).trans (by simp)
        intro j hj
        have := hprior j.succ (by simpa using hj)
        simpa using this

/-- C5.  attemptRotation tries the six kick offsets in the fixed source
order (kickOffsets); if the offsets before position i all collide and
offset i does not, it commits: the position moves by offset i and the
active piece becomes the rotated one; if all six offsets collide it
fails and both the piece and the position are returned unchanged. -/
theorem c5_attemptRotation_kick_order (occ : Pos → Bool) (rot : Block) (nx ny : Int)
    (cur : Block) :
    (∀ i : Fin kickOffsets.length,
      (∀ j : Fin kickOffsets.length, j.val < i.val →
        checkCollision occ rot (nx + (kickOffsets.get j).1) (ny + (kickOffsets.get j).2) = true) →
      checkCollision occ rot (nx + (kickOffsets.get i).1) (ny + (kickOffsets.get i).2) = false →
      attemptRotation occ rot nx ny cur =
        (true, nx + (kickOffsets.get i).1, ny + (kickOffsets.get i).2, rot)) ∧
    ((∀ o ∈ kickOffsets, checkCollision occ rot (nx + o.1) (ny + o.2) = true) →
      attemptRotation occ rot nx ny cur = (false, nx, ny, cur)) := by
  constructor
  · intro i hprior hfree
    unfold attemptRotation
    rw [tryOffsets_first occ rot nx ny kickOffsets i hprior hfree]
  · intro hall
    unfold attemptRotation
    rw [tryOffsets_none occ rot nx ny kickOffsets hall]

theorem c5_witness :
    attemptRotation (fun p => decide (p.1.val = 0 ∧ p.2.val = 1)) (makeBlock 1 2) 0 0
        (makeBlock 3 4) =
      (true, 0 + (kickOffsets.get ⟨1, by decide⟩).1, 0 + (kickOffsets.get ⟨1, by decide⟩).2,
        makeBlock 1 2) :=
  (c5_attemptRotation_kick_order (fun p => decide (p.1.val = 0 ∧ p.2.val = 1)) (makeBlock 1 2)
      0 0 (makeBlock 3 4)).1 ⟨1, by decide⟩ (by decide) (by decide)

/-! ## Rotation four-fold identity (C7) -/

/-- C7.  On every piece satisfying the data model's Piece invariant
(the four corner cells of the 3x3 matrix are empty, in both the shape
and the colour matrix — makeBlock and both rotations only ever produce
such pieces), four clockwise rotations give back the piece unchanged,
and so do four counter-clockwise rotations. -/
theorem c7_rotation_four_identity (b : Block)
    (h : ∀ y x : Fin SIZE, isCorner y x = true → b.shape y x = 0 ∧ b.color y x = 0) :
    rotateRight (rotateRight (rotateRight (rotateRight b))) = b ∧
    rotateLeft (rotateLeft (rotateLeft (rotateLeft b))) = b := by
  constructor <;>
    (refine blockExt _ _ ?_ ?_ <;> funext y x <;> fin_cases y <;> fin_cases x <;>
      first
        | rfl
        | (exact ((h _ _ (by decide)).1).symm)
        | (exact ((h _ _ (by decide)).2).symm))

theorem c7_witness :
    rotateRight (rotateRight (rotateRight (rotateRight (makeBlock 2 5)))) = makeBlock 2 5 ∧
    rotateLeft (rotateLeft (rotateLeft (rotateLeft (makeBlock 2 5)))) = makeBlock 2 5 :=
  c7_rotation_four_identity (makeBlock 2 5) (by decide)

/-! ## Ghost projection (C8) -/

theorem ghostRow_spec (occ : Pos → Bool) (gx : Int) :
    ∀ (n : Nat) (gy : Int), ((HEIGHT : Int) - gy).toNat ≤ n →
      gy ≤ ghostRow occ gx gy ∧
      (∀ k : Int, gy < k → k ≤ ghostRow occ gx gy → occAtI occ k gx = false) ∧
      ((HEIGHT : Int) ≤ ghostRow occ gx gy + 1 ∨
        occAtI occ (ghostRow occ gx gy + 1) gx = true) ∧
      (gy < (HEIGHT : Int) → ghostRow occ gx gy < (HEIGHT : Int)) := by
  intro n
  induction n with
  | zero =>
      intro gy hn
      have hguard : ¬ (gy + 1 < (HEIGHT : Int) ∧ occAtI occ (gy + 1) gx = false) := by
        rintro ⟨h1, -⟩; omega
      rw [ghostRow, dif_neg hguard]
      refine ⟨le_refl gy, ?_, Or.inl (by omega), ?_⟩
      · intro k h1 h2; omega
      · intro h1; omega
  | succ n ih =>
      intro gy hn
      by_cases hg : gy + 1 < (HEIGHT : Int) ∧ occAtI occ (gy + 1) gx = false
      · rw [ghostRow, dif_pos hg]
        have hrec := ih (gy + 1) (by omega)
        refine ⟨?_, ?_, hrec.2.2.1, ?_⟩
        · have := hrec.1; omega
        · intro k h1 h2
          by_cases hk : k = gy + 1
          · subst hk; exact hg.2
          · exact hrec.2.1 k (by omega) h2
        · intro _
          exact hrec.2.2.2 hg.1
      · rw [ghostRow, dif_neg hg]
        refine ⟨le_refl gy, ?_, ?_, fun h1 => h1⟩
        · intro k h1 h2; omega
        · by_cases h1 : gy + 1 < (HEIGHT : Int)
          · right
            have h2 : ¬ occAtI occ (gy + 1) gx = false := fun hf => hg ⟨h1, hf⟩
            simpa using h2
          · exact Or.inl (by omega)

/-- The cells drawn by drawGhost, as board coordinates (row, column):
for every occupied local cell, taken independently, the cell is dropped
through empty cells and drawn at its final row if that lands inside the
board.  The function only reads the grid; the board and the piece are
not modified (the embedding returns just the drawn cells). -/
def drawGhostCells (occ : Pos → Bool) (b : Block) (x y : Int) : List (Int × Int) :=
  (List.finRange SIZE).flatMap fun xx =>
    (List.finRange SIZE).filterMap fun yy =>
      if b.shape yy xx ≠ 0 then
        let g := ghostRow occ (x + xx.val) (y + yy.val)
        if 0 ≤ g ∧ g < (HEIGHT : Int) ∧ 0 ≤ x + xx.val ∧ x + xx.val < (WIDTH : Int) then
          some (g, x + xx.val)
        else none
      else none

/-- C8.  The ghost projection treats every occupied local cell of the
piece independently: the drawn row for such a cell is the result of
descending from its own board row while the cell immediately below is
inside the board and empty — so every row passed through has an empty
cell below it, and at the final row the cell below is off the board or
occupied.  Every drawn cell arises this way from some occupied local
cell (no whole-piece placement is involved), and drawing only reads the
board. -/
theorem c8_ghost_per_cell (occ : Pos → Bool) (b : Block) (x y : Int) :
    (∀ yy xx : Fin SIZE, b.shape yy xx ≠ 0 →
      y + yy.val ≤ ghostRow occ (x + xx.val) (y + yy.val) ∧
      (∀ k : Int, y + yy.val < k → k ≤ ghostRow occ (x + xx.val) (y + yy.val) →
        occAtI occ k (x + xx.val) = false) ∧
      ((HEIGHT : Int) ≤ ghostRow occ (x + xx.val) (y + yy.val) + 1 ∨
        occAtI occ (ghostRow occ (x + xx.val) (y + yy.val) + 1) (x + xx.val) = true) ∧
      (y + yy.val < (HEIGHT : Int) →
        ghostRow occ (x + xx.val) (y + yy.val) < (HEIGHT : Int))) ∧
    (∀ rc : Int × Int, rc ∈ drawGhostCells occ b x y →
      ∃ yy xx : Fin SIZE, b.shape yy xx ≠ 0 ∧
        rc = (ghostRow occ (x + xx.val) (y + yy.val), x + xx.val) ∧
        0 ≤ rc.1 ∧ rc.1 < (HEIGHT : Int) ∧ 0 ≤ rc.2 ∧ rc.2 < (WIDTH : Int)) ∧
    (∀ yy xx : Fin SIZE, b.shape yy xx ≠ 0 →
      0 ≤ ghostRow occ (x + xx.val) (y + yy.val) →
      ghostRow occ (x + xx.val) (y + yy.val) < (HEIGHT : Int) →
      0 ≤ x + xx.val → x + xx.val < (WIDTH : Int) →
      (ghostRow occ (x + xx.val) (y + yy.val), x + xx.val) ∈ drawGhostCells occ b x y) := by
  refine ⟨?_, ?_, ?_⟩
  · intro yy xx _
    exact ghostRow_spec occ (x + xx.val) ((HEIGHT : Int) - (y + yy.val)).toNat (y + yy.val)
      (le_refl _)
  · intro rc hrc
    simp only [drawGhostCells, List.mem_flatMap, List.mem_filterMap, List.mem_finRange,
      true_and] at hrc
    obtain ⟨xx, yy, hsome⟩ := hrc
    by_cases hsh : b.shape yy xx ≠ 0
    · rw [if_pos hsh] at hsome
      by_cases hbd : 0 ≤ ghostRow occ (x + xx.val) (y + yy.val) ∧
          ghostRow occ (x + xx.val) (y + yy.val) < (HEIGHT : Int) ∧
          0 ≤ x + xx.val ∧ x + xx.val < (WIDTH : Int)
      · rw [if_pos hbd] at hsome
        obtain rfl := (Option.some_inj.1 hsome).symm
        exact ⟨yy, xx, hsh, rfl, hbd.1, hbd.2.1, hbd.2.2.1, hbd.2.2.2⟩
      · rw [if_neg hbd] at hsome
        exact absurd hsome (by simp)
    · rw [if_neg hsh] at hsome
      exact absurd hsome (by simp)
  · intro yy xx hsh h1 h2 h3 h4
    simp only [drawGhostCells, List.mem_flatMap, List.mem_filterMap, List.mem_finRange,
      true_and]
    refine ⟨xx, yy, ?_⟩
    rw [if_pos hsh, if_pos ⟨h1, h2, h3, h4⟩]

theorem c8_witness :
    (makeBlock 1 2).shape ⟨0, by decide⟩ ⟨1, by decide⟩ ≠ 0 ∧
    ghostRow (fun _ => false) 5 0 = 19 ∧
    occAtI (fun _ => false) 7 5 = false := by
  have h := (c8_ghost_per_cell (fun _ => false) (makeBlock 1 2) 4 0).1 ⟨0, by decide⟩
      ⟨1, by decide⟩ (by decide)
  have e1 : (4 + ((⟨1, by decide⟩ : Fin SIZE)).val : Int) = 5 := rfl
  have e2 : ((0 : Int) + ((⟨0, by decide⟩ : Fin SIZE)).val : Int) = 0 := rfl
  rw [e1, e2] at h
  have hH : ((HEIGHT : Nat) : Int) = 20 := rfl
  have hg : ghostRow (fun _ => false) 5 0 = 19 := by
    have h4 := h.2.2.2 (by omega)
    rcases h.2.2.1 with h2 | h2
    · omega
    · have h3 : occAtI (fun _ => false) (ghostRow (fun _ => false) 5 0 + 1) 5 = false := by
        simp [occAtI]
      rw [h3] at h2
      exact absurd h2 (by simp)
  refine ⟨by decide, hg, ?_⟩
  have := h.2.1 7 (by omega) (by omega)
  exact this

/-! ## Characterising the dfs flood fill -/

/-- One flood-fill step that also avoids an ambient visited set: the
relation the dfs recursion explores. -/
def stepAvoid (occ : Pos → Bool) (col : Pos → Nat) (c : Nat) (V : Pos → Bool) (a b : Pos) :
    Prop :=
  adjacent a b ∧ occ b = true ∧ col b = c ∧ V b = false

/-- Reachability through unvisited matching cells. -/
def reachAvoid (occ : Pos → Bool) (col : Pos → Nat) (c : Nat) (V : Pos → Bool) (p q : Pos) :
    Prop :=
  Relation.ReflTransGen (stepAvoid occ col c V) p q

theorem upd_true_iff (V : Pos → Bool) (p q : Pos) :
    (upd V p true) q = true ↔ (q = p ∨ V q = true) := by
  unfold upd
  by_cases h : q = p <;> simp [h]

theorem upd_false_elim (V : Pos → Bool) (p q : Pos) (h : (upd V p true) q = false) :
    V q = false := by
  unfold upd at h
  by_cases hq : q = p
  · rw [if_pos hq] at h; exact absurd h (by simp)
  · rwa [if_neg hq] at h

theorem upd_mono (V : Pos → Bool) (p q : Pos) (h : V q = true) : (upd V p true) q = true := by
  unfold upd
  by_cases hq : q = p <;> simp [hq, h]

theorem dfs_zero (occ : Pos → Bool) (col : Pos → Nat) (c : Nat) (y x : Int) (st : DfsSt) :
    dfs occ col c 0 y x st = st := rfl

theorem dfs_not_inb (occ : Pos → Bool) (col : Pos → Nat) (c : Nat) (fuel : Nat) (y x : Int)
    (st : DfsSt) (h : ¬ inb y x) : dfs occ col c fuel y x st = st := by
  cases fuel with
  | zero => rfl
  | succ n => simp [dfs, h]

theorem dfs_skip (occ : Pos → Bool) (col : Pos → Nat) (c : Nat) (fuel : Nat) (y x : Int)
    (st : DfsSt) (h : inb y x)
    (hs : occ (mkPos y x h) = false ∨ col (mkPos y x h) ≠ c ∨
      st.visited (mkPos y x h) = true) :
    dfs occ col c fuel y x st = st := by
  cases fuel with
  | zero => rfl
  | succ n => simp [dfs, h, hs]

theorem dfs_enter (occ : Pos → Bool) (col : Pos → Nat) (c : Nat) (fuel : Nat) (y x : Int)
    (st : DfsSt) (h : inb y x) (h1 : occ (mkPos y x h) = true)
    (h2 : col (mkPos y x h) = c) (h3 : st.visited (mkPos y x h) = false) :
    dfs occ col c (fuel + 1) y x st =
      dfs occ col c fuel y (x - 1) (dfs occ col c fuel y (x + 1)
        (dfs occ col c fuel (y - 1) x (dfs occ col c fuel (y + 1) x
          ⟨upd st.visited (mkPos y x h) true, st.coords ++ [mkPos y x h]⟩))) := by
  have hs : ¬ (occ (mkPos y x h) = false ∨ col (mkPos y x h) ≠ c ∨
      st.visited (mkPos y x h) = true) := by
    push_neg
    exact ⟨by simp [h1], h2, by simp [h3]⟩
  simp [dfs, h, hs]

theorem mkPos_val (p : Pos) (h : inb (p.1.val : Int) (p.2.val : Int)) :
    mkPos (p.1.val : Int) (p.2.val : Int) h = p := by
  unfold mkPos
  refine Prod.ext ?_ ?_ <;> simp [Fin.ext_iff]

theorem inb_val (p : Pos) : inb (p.1.val : Int) (p.2.val : Int) := by
  have h1 := p.1.isLt
  have h2 := p.2.isLt
  refine ⟨by omega, by omega, by omega, by omega⟩

theorem adjacent_mkPos_down (y x : Int) (h : inb y x) (h2 : inb (y + 1) x) :
    adjacent (mkPos y x h) (mkPos (y + 1) x h2) := by
  have a1 := h.1
  refine Or.inl ⟨rfl, Or.inl ?_⟩
  show y.toNat + 1 = (y + 1).toNat
  omega

theorem adjacent_mkPos_up (y x : Int) (h : inb y x) (h2 : inb (y - 1) x) :
    adjacent (mkPos y x h) (mkPos (y - 1) x h2) := by
  have a1 := h2.1
  refine Or.inl ⟨rfl, Or.inr ?_⟩
  show (y - 1).toNat + 1 = y.toNat
  omega

theorem adjacent_mkPos_right (y x : Int) (h : inb y x) (h2 : inb y (x + 1)) :
    adjacent (mkPos y x h) (mkPos y (x + 1) h2) := by
  have a3 := h.2.2.1
  refine Or.inr ⟨rfl, Or.inl ?_⟩
  show x.toNat + 1 = (x + 1).toNat
  omega

theorem adjacent_mkPos_left (y x : Int) (h : inb y x) (h2 : inb y (x - 1)) :
    adjacent (mkPos y x h) (mkPos y (x - 1) h2) := by
  have a3 := h2.2.2.1
  refine Or.inr ⟨rfl, Or.inr ?_⟩
  show (x - 1).toNat + 1 = x.toNat
  omega

theorem adjacent_mkPos_cases (y x : Int) (h : inb y x) (q : Pos)
    (hadj : adjacent (mkPos y x h) q) :
    (∃ h2 : inb (y + 1) x, q = mkPos (y + 1) x h2) ∨
    (∃ h2 : inb (y - 1) x, q = mkPos (y - 1) x h2) ∨
    (∃ h2 : inb y (x + 1), q = mkPos y (x + 1) h2) ∨
    (∃ h2 : inb y (x - 1), q = mkPos y (x - 1) h2) := by
  obtain ⟨a1, a2, a3, a4⟩ := h
  have hq1 := q.1.isLt
  have hq2 := q.2.isLt
  rcases hadj with ⟨hc, hr | hr⟩ | ⟨hc, hr | hr⟩
  · replace hr : y.toNat + 1 = q.1.val := hr
    refine Or.inl ⟨⟨by omega, by omega, by omega, by omega⟩, ?_⟩
    refine Prod.ext (Fin.ext ?_) hc.symm
    show q.1.val = (y + 1).toNat
    omega
  · replace hr : q.1.val + 1 = y.toNat := hr
    refine Or.inr (Or.inl ⟨⟨by omega, by omega, by omega, by omega⟩, ?_⟩)
    refine Prod.ext (Fin.ext ?_) hc.symm
    show q.1.val = (y - 1).toNat
    omega
  · replace hr : x.toNat + 1 = q.2.val := hr
    refine Or.inr (Or.inr (Or.inl ⟨⟨by omega, by omega, by omega, by omega⟩, ?_⟩))
    refine Prod.ext hc.symm (Fin.ext ?_)
    show q.2.val = (x + 1).toNat
    omega
  · replace hr : q.2.val + 1 = x.toNat := hr
    refine Or.inr (Or.inr (Or.inr ⟨⟨by omega, by omega, by omega, by omega⟩, ?_⟩))
    refine Prod.ext hc.symm (Fin.ext ?_)
    show q.2.val = (x - 1).toNat
    omega

theorem visited_back {A B : Pos → Bool} {ll : List Pos}
    (vv : ∀ q : Pos, A q = true ↔ (B q = true ∨ q ∈ ll)) (q : Pos) (h : A q = false) :
    B q = false ∧ q ∉ ll := by
  constructor
  · cases hB : B q
    · rfl
    · exact absurd ((vv q).2 (Or.inl hB)) (by simp [h])
  · intro hq
    exact absurd ((vv q).2 (Or.inr hq)) (by simp [h])

theorem dfs_visited_mono (occ : Pos → Bool) (col : Pos → Nat) (c : Nat) :
    ∀ (fuel : Nat) (y x : Int) (st : DfsSt) (q : Pos),
      st.visited q = true → (dfs occ col c fuel y x st).visited q = true := by
  intro fuel
  induction fuel with
  | zero => intro y x st q h; exact h
  | succ n ih =>
      intro y x st q h
      by_cases hin : inb y x
      · by_cases hs : occ (mkPos y x hin) = false ∨ col (mkPos y x hin) ≠ c ∨
            st.visited (mkPos y x hin) = true
        · rw [dfs_skip occ col c (n + 1) y x st hin hs]; exact h
        · push_neg at hs
          obtain ⟨h1, h2, h3⟩ := hs
          rw [dfs_enter occ col c n y x st hin (eq_true_of_ne_false h1) h2
            (eq_false_of_ne_true h3)]
          exact ih _ _ _ q (ih _ _ _ q (ih _ _ _ q (ih _ _ _ q (upd_mono _ _ q h))))
      · rw [dfs_not_inb occ col c (n + 1) y x st hin]; exact h

theorem dfs_marks_start (occ : Pos → Bool) (col : Pos → Nat) (c : Nat) (fuel : Nat)
    (hf : 1 ≤ fuel) (y x : Int) (st : DfsSt) (h : inb y x)
    (h1 : occ (mkPos y x h) = true) (h2 : col (mkPos y x h) = c)
    (h3 : st.visited (mkPos y x h) = false) :
    (dfs occ col c fuel y x st).visited (mkPos y x h) = true := by
  obtain ⟨n, rfl⟩ : ∃ n, fuel = n + 1 := ⟨fuel - 1, by omega⟩
  rw [dfs_enter occ col c n y x st h h1 h2 h3]
  refine dfs_visited_mono occ col c n _ _ _ _ (dfs_visited_mono occ col c n _ _ _ _
    (dfs_visited_mono occ col c n _ _ _ _ (dfs_visited_mono occ col c n _ _ _ _ ?_)))
  exact upd_same st.visited (mkPos y x h) true

theorem dfs_spec (occ : Pos → Bool) (col : Pos → Nat) (c : Nat) :
    ∀ (fuel : Nat) (y x : Int) (st : DfsSt), ∃ l : List Pos,
      (dfs occ col c fuel y x st).coords = st.coords ++ l ∧
      l.Nodup ∧
      (∀ q : Pos, (dfs occ col c fuel y x st).visited q = true ↔
        (st.visited q = true ∨ q ∈ l)) ∧
      (∀ q ∈ l, st.visited q = false) ∧
      (∀ q ∈ l, ∃ h : inb y x, occ (mkPos y x h) = true ∧ col (mkPos y x h) = c ∧
        st.visited (mkPos y x h) = false ∧
        reachAvoid occ col c st.visited (mkPos y x h) q) := by
  intro fuel
  induction fuel with
  | zero =>
      intro y x st
      exact ⟨[], by simp [dfs_zero], by simp, fun q => by simp [dfs_zero], by simp, by simp⟩
  | succ n ih =>
      intro y x st
      by_cases hin : inb y x
      case neg =>
        rw [dfs_not_inb occ col c (n + 1) y x st hin]
        exact ⟨[], by simp, by simp, fun q => by simp, by simp, by simp⟩
      by_cases hs : occ (mkPos y x hin) = false ∨ col (mkPos y x hin) ≠ c ∨
          st.visited (mkPos y x hin) = true
      case pos =>
        rw [dfs_skip occ col c (n + 1) y x st hin hs]
        exact ⟨[], by simp, by simp, fun q => by simp, by simp, by simp⟩
      push_neg at hs
      obtain ⟨h1, h2, h3⟩ := hs
      replace h1 : occ (mkPos y x hin) = true := eq_true_of_ne_false h1
      replace h3 : st.visited (mkPos y x hin) = false := eq_false_of_ne_true h3
      rw [dfs_enter occ col c n y x st hin h1 h2 h3]
      set p : Pos := mkPos y x hin with hp
      set st1 : DfsSt := ⟨upd st.visited p true, st.coords ++ [p]⟩ with hst1
      obtain ⟨l1, e1, n1, v1, f1, r1⟩ := ih (y + 1) x st1
      set st2 : DfsSt := dfs occ col c n (y + 1) x st1 with hst2
      obtain ⟨l2, e2, n2, v2, f2, r2⟩ := ih (y - 1) x st2
      set st3 : DfsSt := dfs occ col c n (y - 1) x st2 with hst3
      obtain ⟨l3, e3, n3, v3, f3, r3⟩ := ih y (x + 1) st3
      set st4 : DfsSt := dfs occ col c n y (x + 1) st3 with hst4
      obtain ⟨l4, e4, n4, v4, f4, r4⟩ := ih y (x - 1) st4
      have hv1p : st1.visited p = true := upd_same st.visited p true
      have hv2p : st2.visited p = true := (v1 p).2 (Or.inl hv1p)
      have hv3p : st3.visited p = true := (v2 p).2 (Or.inl hv2p)
      have hv4p : st4.visited p = true := (v3 p).2 (Or.inl hv3p)
      have back1 : ∀ q : Pos, st1.visited q = false → st.visited q = false ∧ q ≠ p := by
        intro q hq
        refine ⟨upd_false_elim st.visited p q hq, ?_⟩
        rintro rfl
        rw [hv1p] at hq
        exact absurd hq (by simp)
      have back2 : ∀ q : Pos, st2.visited q = false →
          st.visited q = false ∧ q ≠ p ∧ q ∉ l1 := by
        intro q hq
        obtain ⟨hq1, hq2⟩ := visited_back v1 q hq
        exact ⟨(back1 q hq1).1, (back1 q hq1).2, hq2⟩
      have back3 : ∀ q : Pos, st3.visited q = false →
          st.visited q = false ∧ q ≠ p ∧ q ∉ l1 ∧ q ∉ l2 := by
        intro q hq
        obtain ⟨hq1, hq2⟩ := visited_back v2 q hq
        exact ⟨(back2 q hq1).1, (back2 q hq1).2.1, (back2 q hq1).2.2, hq2⟩
      have back4 : ∀ q : Pos, st4.visited q = false →
          st.visited q = false ∧ q ≠ p ∧ q ∉ l1 ∧ q ∉ l2 ∧ q ∉ l3 := by
        intro q hq
        obtain ⟨hq1, hq2⟩ := visited_back v3 q hq
        exact ⟨(back3 q hq1).1, (back3 q hq1).2.1, (back3 q hq1).2.2.1,
          (back3 q hq1).2.2.2, hq2⟩
      refine ⟨p :: (l1 ++ l2 ++ l3 ++ l4), ?_, ?_, ?_, ?_, ?_⟩
      · rw [e4, e3, e2, e1]
        show st.coords ++ [p] ++ l1 ++ l2 ++ l3 ++ l4 = _
        simp
      · refine List.nodup_cons.2 ⟨?_, ?_⟩
        · intro hpmem
          rcases List.mem_append.1 hpmem with hm | hm4
          · rcases List.mem_append.1 hm with hm | hm3
            · rcases List.mem_append.1 hm with hm1 | hm2
              · exact (back1 p (f1 p hm1)).2 rfl
              · exact (back2 p (f2 p hm2)).2.1 rfl
            · exact (back3 p (f3 p hm3)).2.1 rfl
          · exact (back4 p (f4 p hm4)).2.1 rfl
        · refine (List.nodup_append).2 ⟨?_, n4, ?_⟩
          · refine (List.nodup_append).2 ⟨?_, n3, ?_⟩
            · refine (List.nodup_append).2 ⟨n1, n2, ?_⟩
              intro a ha1 ha2
              exact (back2 a (f2 a ha2)).2.2 ha1
            · intro a ha ha3
              rcases List.mem_append.1 ha with ha1 | ha2
              · exact (back3 a (f3 a ha3)).2.2.1 ha1
              · exact (back3 a (f3 a ha3)).2.2.2 ha2
          · intro a ha ha4
            rcases List.mem_append.1 ha with ha | ha3
            · rcases List.mem_append.1 ha with ha1 | ha2
              · exact (back4 a (f4 a ha4)).2.2.1 ha1
              · exact (back4 a (f4 a ha4)).2.2.2.1 ha2
            · exact (back4 a (f4 a ha4)).2.2.2.2 ha3
      · intro q
        rw [v4 q, v3 q, v2 q, v1 q]
        have hupd : st1.visited q = true ↔ (q = p ∨ st.visited q = true) :=
          upd_true_iff st.visited p q
        rw [hupd]
        simp only [List.mem_cons, List.mem_append]
        tauto
      · intro q hq
        rcases List.mem_cons.1 hq with rfl | hq
        · exact h3
        · rcases List.mem_append.1 hq with hm | hm4
          · rcases List.mem_append.1 hm with hm | hm3
            · rcases List.mem_append.1 hm with hm1 | hm2
              · exact (back1 q (f1 q hm1)).1
              · exact (back2 q (f2 q hm2)).1
            · exact (back3 q (f3 q hm3)).1
          · exact (back4 q (f4 q hm4)).1
      · intro q hq
        refine ⟨hin, h1, h2, h3, ?_⟩
        rcases List.mem_cons.1 hq with rfl | hq
        · exact Relation.ReflTransGen.refl
        rcases List.mem_append.1 hq with hm | hm4
        · rcases List.mem_append.1 hm with hm | hm3
          · rcases List.mem_append.1 hm with hm1 | hm2
            · obtain ⟨hd, k1, k2, k3, kpath⟩ := r1 q hm1
              have hstv : st.visited (mkPos (y + 1) x hd) = false := (back1 _ k3).1
              have hlift : reachAvoid occ col c st.visited (mkPos (y + 1) x hd) q :=
                Relation.ReflTransGen.mono
                  (fun a b hab => ⟨hab.1, hab.2.1, hab.2.2.1, (back1 b hab.2.2.2).1⟩) kpath
              exact Relation.ReflTransGen.head
                ⟨adjacent_mkPos_down y x hin hd, k1, k2, hstv⟩ hlift
            · obtain ⟨hd, k1, k2, k3, kpath⟩ := r2 q hm2
              have hstv : st.visited (mkPos (y - 1) x hd) = false := (back2 _ k3).1
              have hlift : reachAvoid occ col c st.visited (mkPos (y - 1) x hd) q :=
                Relation.ReflTransGen.mono
                  (fun a b hab => ⟨hab.1, hab.2.1, hab.2.2.1, (back2 b hab.2.2.2).1⟩) kpath
              exact Relation.ReflTransGen.head
                ⟨adjacent_mkPos_up y x hin hd, k1, k2, hstv⟩ hlift
          · obtain ⟨hd, k1, k2, k3, kpath⟩ := r3 q hm3
            have hstv : st.visited (mkPos y (x + 1) hd) = false := (back3 _ k3).1
            have hlift : reachAvoid occ col c st.visited (mkPos y (x + 1) hd) q :=
              Relation.ReflTransGen.mono
                (fun a b hab => ⟨hab.1, hab.2.1, hab.2.2.1, (back3 b hab.2.2.2).1⟩) kpath
            exact Relation.ReflTransGen.head
              ⟨adjacent_mkPos_right y x hin hd, k1, k2, hstv⟩ hlift
        · obtain ⟨hd, k1, k2, k3, kpath⟩ := r4 q hm4
          have hstv : st.visited (mkPos y (x - 1) hd) = false := (back4 _ k3).1
          have hlift : reachAvoid occ col c st.visited (mkPos y (x - 1) hd) q :=
            Relation.ReflTransGen.mono
              (fun a b hab => ⟨hab.1, hab.2.1, hab.2.2.1, (back4 b hab.2.2.2).1⟩) kpath
          exact Relation.ReflTransGen.head
            ⟨adjacent_mkPos_left y x hin hd, k1, k2, hstv⟩ hlift

/-- Number of unvisited cells, the fuel measure of the dfs. -/
def unvisitedCard (V : Pos → Bool) : Nat :=
  (Finset.univ.filter (fun p => V p = false)).card

theorem unvisitedCard_le (V : Pos → Bool) : unvisitedCard V ≤ HEIGHT * WIDTH := by
  have h1 : unvisitedCard V ≤ (Finset.univ : Finset Pos).card :=
    Finset.card_filter_le _ _
  rwa [Finset.card_univ, card_pos_type] at h1

theorem unvisitedCard_mono {V W : Pos → Bool} (h : ∀ q : Pos, V q = true → W q = true) :
    unvisitedCard W ≤ unvisitedCard V := by
  apply Finset.card_le_card
  intro q hq
  rw [Finset.mem_filter] at hq ⊢
  refine ⟨Finset.mem_univ q, ?_⟩
  cases hV : V q
  · rfl
  · exact absurd (h q hV) (by simp [hq.2])

theorem unvisitedCard_upd (V : Pos → Bool) (p : Pos) (h : V p = false) :
    unvisitedCard (upd V p true) + 1 = unvisitedCard V := by
  have hset : Finset.univ.filter (fun q => (upd V p true) q = false) =
      (Finset.univ.filter (fun q => V q = false)).erase p := by
    ext q
    simp only [Finset.mem_filter, Finset.mem_erase, Finset.mem_univ, true_and]
    constructor
    · intro hq
      have hne : q ≠ p := by
        rintro rfl
        rw [upd_same] at hq
        exact absurd hq (by simp)
      refine ⟨hne, ?_⟩
      rwa [upd_ne _ _ _ _ hne] at hq
    · rintro ⟨hne, hq⟩
      rwa [upd_ne _ _ _ _ hne]
  unfold unvisitedCard
  rw [hset, Finset.card_erase_of_mem (by simp [h])]
  have hpos : 0 < (Finset.univ.filter (fun q => V q = false)).card :=
    Finset.card_pos.2 ⟨p, by simp [h]⟩
  omega

theorem dfs_complete (occ : Pos → Bool) (col : Pos → Nat) (c : Nat) :
    ∀ (fuel : Nat) (y x : Int) (st : DfsSt),
      unvisitedCard st.visited + 1 ≤ fuel →
      ∀ r : Pos, (dfs occ col c fuel y x st).visited r = true →
        st.visited r = true ∨
        (∀ q : Pos, adjacent r q → occ q = true → col q = c →
          (dfs occ col c fuel y x st).visited q = true) := by
  intro fuel
  induction fuel with
  | zero => intro y x st hf; omega
  | succ n ih =>
      intro y x st hf r hr
      by_cases hin : inb y x
      case neg =>
        rw [dfs_not_inb occ col c (n + 1) y x st hin] at hr
        exact Or.inl hr
      by_cases hs : occ (mkPos y x hin) = false ∨ col (mkPos y x hin) ≠ c ∨
          st.visited (mkPos y x hin) = true
      case pos =>
        rw [dfs_skip occ col c (n + 1) y x st hin hs] at hr
        exact Or.inl hr
      push_neg at hs
      obtain ⟨h1, h2, h3⟩ := hs
      replace h1 : occ (mkPos y x hin) = true := eq_true_of_ne_false h1
      replace h3 : st.visited (mkPos y x hin) = false := eq_false_of_ne_true h3
      rw [dfs_enter occ col c n y x st hin h1 h2 h3] at hr ⊢
      set p : Pos := mkPos y x hin with hp
      set st1 : DfsSt := ⟨upd st.visited p true, st.coords ++ [p]⟩ with hst1
      set st2 : DfsSt := dfs occ col c n (y + 1) x st1 with hst2
      set st3 : DfsSt := dfs occ col c n (y - 1) x st2 with hst3
      set st4 : DfsSt := dfs occ col c n y (x + 1) st3 with hst4
      have m12 : ∀ q : Pos, st1.visited q = true → st2.visited q = true := fun q =>
        dfs_visited_mono occ col c n (y + 1) x st1 q
      have m23 : ∀ q : Pos, st2.visited q = true → st3.visited q = true := fun q =>
        dfs_visited_mono occ col c n (y - 1) x st2 q
      have m34 : ∀ q : Pos, st3.visited q = true → st4.visited q = true := fun q =>
        dfs_visited_mono occ col c n y (x + 1) st3 q
      have m45 : ∀ q : Pos,
          st4.visited q = true → (dfs occ col c n y (x - 1) st4).visited q = true := fun q =>
        dfs_visited_mono occ col c n y (x - 1) st4 q
      have hucp : 1 ≤ unvisitedCard st.visited :=
        Finset.card_pos.2 ⟨p, Finset.mem_filter.2 ⟨Finset.mem_univ p, h3⟩⟩
      have huc1 : unvisitedCard st1.visited + 1 = unvisitedCard st.visited :=
        unvisitedCard_upd st.visited p h3
      have huc2 : unvisitedCard st2.visited ≤ unvisitedCard st1.visited :=
        unvisitedCard_mono m12
      have huc3 : unvisitedCard st3.visited ≤ unvisitedCard st2.visited :=
        unvisitedCard_mono m23
      have huc4 : unvisitedCard st4.visited ≤ unvisitedCard st3.visited :=
        unvisitedCard_mono m34
      have hn1 : 1 ≤ n := by omega
      by_cases hr0 : st.visited r = true
      · exact Or.inl hr0
      right
      intro q hadj hqocc hqcol
      by_cases hrA : st1.visited r = true
      · have hrp : r = p := by
          rcases (upd_true_iff st.visited p r).1 hrA with h | h
          · exact h
          · exact absurd h hr0
        subst hrp
        rcases adjacent_mkPos_cases y x hin q hadj with ⟨hd, rfl⟩ | ⟨hd, rfl⟩ | ⟨hd, rfl⟩ |
          ⟨hd, rfl⟩
        · by_cases hq1 : st1.visited (mkPos (y + 1) x hd) = true
          · exact m45 _ (m34 _ (m23 _ (m12 _ hq1)))
          · have hmk : st2.visited (mkPos (y + 1) x hd) = true :=
              dfs_marks_start occ col c n hn1 (y + 1) x st1 hd hqocc hqcol
                (eq_false_of_ne_true hq1)
            exact m45 _ (m34 _ (m23 _ hmk))
        · by_cases hq1 : st2.visited (mkPos (y - 1) x hd) = true
          · exact m45 _ (m34 _ (m23 _ hq1))
          · have hmk : st3.visited (mkPos (y - 1) x hd) = true :=
              dfs_marks_start occ col c n hn1 (y - 1) x st2 hd hqocc hqcol
                (eq_false_of_ne_true hq1)
            exact m45 _ (m34 _ hmk)
        · by_cases hq1 : st3.visited (mkPos y (x + 1) hd) = true
          · exact m45 _ (m34 _ hq1)
          · have hmk : st4.visited (mkPos y (x + 1) hd) = true :=
              dfs_marks_start occ col c n hn1 y (x + 1) st3 hd hqocc hqcol
                (eq_false_of_ne_true hq1)
            exact m45 _ hmk
        · by_cases hq1 : st4.visited (mkPos y (x - 1) hd) = true
          · exact m45 _ hq1
          · exact dfs_marks_start occ col c n hn1 y (x - 1) st4 hd hqocc hqcol
              (eq_false_of_ne_true hq1)
      · by_cases hrB : st2.visited r = true
        · rcases ih (y + 1) x st1 (by omega) r hrB with hcase | hclosed
          · exact absurd hcase hrA
          · exact m45 _ (m34 _ (m23 _ (hclosed q hadj hqocc hqcol)))
        · by_cases hrC : st3.visited r = true
          · rcases ih (y - 1) x st2 (by omega) r hrC with hcase | hclosed
            · exact absurd hcase hrB
            · exact m45 _ (m34 _ (hclosed q hadj hqocc hqcol))
          · by_cases hrD : st4.visited r = true
            · rcases ih y (x + 1) st3 (by omega) r hrD with hcase | hclosed
              · exact absurd hcase hrC
              · exact m45 _ (hclosed q hadj hqocc hqcol)
            · rcases ih y (x - 1) st4 (by omega) r hr with hcase | hclosed
              · exact absurd hcase hrD
              · exact hclosed q hadj hqocc hqcol

/-- The full characterisation of one dfs run as the source calls it:
started on an occupied, unvisited cell p of colour c with an empty
coords array and the wrapper's fuel, it collects, without duplicates,
exactly the cells reachable from p through unvisited cells of colour c,
and marks exactly those cells visited on top of the old visited set. -/
theorem dfsRun (occ : Pos → Bool) (col : Pos → Nat) (c : Nat) (V : Pos → Bool) (p : Pos)
    (hocc : occ p = true) (hcol : col p = c) (hV : V p = false) :
    (dfs occ col c DFSFUEL (p.1.val : Int) (p.2.val : Int) ⟨V, []⟩).coords.Nodup ∧
    (∀ q : Pos, q ∈ (dfs occ col c DFSFUEL (p.1.val : Int) (p.2.val : Int) ⟨V, []⟩).coords ↔
      reachAvoid occ col c V p q) ∧
    (∀ q : Pos,
      (dfs occ col c DFSFUEL (p.1.val : Int) (p.2.val : Int) ⟨V, []⟩).visited q = true ↔
      (V q = true ∨
        q ∈ (dfs occ col c DFSFUEL (p.1.val : Int) (p.2.val : Int) ⟨V, []⟩).coords)) := by
  have hinb : inb (p.1.val : Int) (p.2.val : Int) := inb_val p
  have hmk := mkPos_val p hinb
  obtain ⟨l, e, nodup, viff, fresh, sound⟩ :=
    dfs_spec occ col c DFSFUEL (p.1.val : Int) (p.2.val : Int) ⟨V, []⟩
  have hel : (dfs occ col c DFSFUEL (p.1.val : Int) (p.2.val : Int) ⟨V, []⟩).coords = l := by
    rw [e]; rfl
  have hfuel : unvisitedCard V + 1 ≤ DFSFUEL := by
    have := unvisitedCard_le V
    unfold DFSFUEL
    omega
  have hmarked : ∀ q : Pos, reachAvoid occ col c V p q →
      (dfs occ col c DFSFUEL (p.1.val : Int) (p.2.val : Int) ⟨V, []⟩).visited q = true ∧
      V q = false := by
    intro q hq
    induction hq with
    | refl =>
        constructor
        · have := dfs_marks_start occ col c DFSFUEL (by unfold DFSFUEL; omega)
            (p.1.val : Int) (p.2.val : Int) ⟨V, []⟩ hinb (by rwa [hmk]) (by rwa [hmk])
            (by rwa [hmk])
          rwa [hmk] at this
        · exact hV
    | tail hra hstep ihq =>
        rename_i a b
        obtain ⟨iha, ihVa⟩ := ihq
        have hcomp := dfs_complete occ col c DFSFUEL (p.1.val : Int) (p.2.val : Int)
          ⟨V, []⟩ hfuel a iha
        rcases hcomp with hcase | hclosed
        · exact absurd hcase (by simp [ihVa])
        · exact ⟨hclosed b hstep.1 hstep.2.1 hstep.2.2.1, hstep.2.2.2⟩
  refine ⟨by rwa [hel], ?_, ?_⟩
  · intro q
    constructor
    · intro hq
      rw [hel] at hq
      obtain ⟨h0, ho, hc2, hv2, hpath⟩ := sound q hq
      rw [hmk] at hpath
      exact hpath
    · intro hq
      obtain ⟨hvis, hfree⟩ := hmarked q hq
      rcases (viff q).1 hvis with hold | hnew
      · exact absurd hold (by simp [hfree])
      · rwa [hel]
  · intro q
    rw [hel]
    exact viff q

/-! ## From dfs runs to components of the original board -/

theorem reachAvoid_congr (occ1 occ2 : Pos → Bool) (col1 col2 : Pos → Nat) (c : Nat)
    (V : Pos → Bool)
    (hagree : ∀ r : Pos, V r = false → (occ1 r = occ2 r ∧ col1 r = col2 r)) (p q : Pos) :
    reachAvoid occ1 col1 c V p q ↔ reachAvoid occ2 col2 c V p q := by
  constructor <;> refine fun h => Relation.ReflTransGen.mono ?_ h
  · rintro a b ⟨h1, h2, h3, h4⟩
    exact ⟨h1, ((hagree b h4).1).symm.trans h2, ((hagree b h4).2).symm.trans h3, h4⟩
  · rintro a b ⟨h1, h2, h3, h4⟩
    exact ⟨h1, ((hagree b h4).1).trans h2, ((hagree b h4).2).trans h3, h4⟩

theorem reachAvoid_eq_comp (st : GameState) (V : Pos → Bool) (p : Pos)
    (hocc : st.occ p = true) (hdisj : ∀ q ∈ comp st p, V q = false) (q : Pos) :
    reachAvoid st.occ st.col (st.col p) V p q ↔ q ∈ comp st p := by
  constructor
  · intro h
    rw [mem_comp]
    exact Relation.ReflTransGen.mono (fun a b hab => ⟨hab.1, hab.2.1, hab.2.2.1⟩) h
  · intro h
    rw [mem_comp] at h
    induction h with
    | refl => exact Relation.ReflTransGen.refl
    | tail hra hstep ihq =>
        rename_i a b
        have hb : b ∈ comp st p := (mem_comp st p b).2 (Relation.ReflTransGen.tail hra hstep)
        exact Relation.ReflTransGen.tail ihq ⟨hstep.1, hstep.2.1, hstep.2.2, hdisj b hb⟩

/-! ## The clearGroups scan invariant -/

/-- Cells whose group has been explored after the scan has processed
the positions of L (on the board O the scan started from). -/
def seenSet (O : GameState) (L : List Pos) : Finset Pos :=
  Finset.univ.filter (fun r => ∃ q ∈ L, O.occ q = true ∧ r ∈ comp O q)

/-- Cells removed after the scan has processed L: members of explored
groups of size at least 4. -/
def remSet (O : GameState) (L : List Pos) : Finset Pos :=
  Finset.univ.filter
    (fun r => ∃ q ∈ L, O.occ q = true ∧ 4 ≤ (comp O q).card ∧ r ∈ comp O q)

/-- The clearable groups discovered after the scan has processed L. -/
def seenBig (O : GameState) (L : List Pos) : Finset (Finset Pos) :=
  (L.toFinset.filter (fun q => O.occ q = true ∧ 4 ≤ (comp O q).card)).image (comp O)

theorem mem_seenSet (O : GameState) (L : List Pos) (r : Pos) :
    r ∈ seenSet O L ↔ ∃ q ∈ L, O.occ q = true ∧ r ∈ comp O q := by
  simp [seenSet]

theorem mem_remSet (O : GameState) (L : List Pos) (r : Pos) :
    r ∈ remSet O L ↔ ∃ q ∈ L, O.occ q = true ∧ 4 ≤ (comp O q).card ∧ r ∈ comp O q := by
  simp [remSet]

theorem remSet_subset_seenSet (O : GameState) (L : List Pos) (r : Pos)
    (h : r ∈ remSet O L) : r ∈ seenSet O L := by
  rw [mem_remSet] at h
  rw [mem_seenSet]
  obtain ⟨q, hq, h1, h2, h3⟩ := h
  exact ⟨q, hq, h1, h3⟩

theorem mem_seenSet_append (O : GameState) (L : List Pos) (p r : Pos) :
    r ∈ seenSet O (L ++ [p]) ↔
      (r ∈ seenSet O L ∨ (O.occ p = true ∧ r ∈ comp O p)) := by
  rw [mem_seenSet, mem_seenSet]
  constructor
  · rintro ⟨q, hq, h1, h2⟩
    rcases List.mem_append.1 hq with hq | hq
    · exact Or.inl ⟨q, hq, h1, h2⟩
    · rcases List.mem_singleton.1 hq with rfl
      exact Or.inr ⟨h1, h2⟩
  · rintro (⟨q, hq, h1, h2⟩ | ⟨h1, h2⟩)
    · exact ⟨q, List.mem_append.2 (Or.inl hq), h1, h2⟩
    · exact ⟨p, List.mem_append.2 (Or.inr (List.mem_singleton_self p)), h1, h2⟩

theorem mem_remSet_append (O : GameState) (L : List Pos) (p r : Pos) :
    r ∈ remSet O (L ++ [p]) ↔
      (r ∈ remSet O L ∨ (O.occ p = true ∧ 4 ≤ (comp O p).card ∧ r ∈ comp O p)) := by
  rw [mem_remSet, mem_remSet]
  constructor
  · rintro ⟨q, hq, h1, h2, h3⟩
    rcases List.mem_append.1 hq with hq | hq
    · exact Or.inl ⟨q, hq, h1, h2, h3⟩
    · rcases List.mem_singleton.1 hq with rfl
      exact Or.inr ⟨h1, h2, h3⟩
  · rintro (⟨q, hq, h1, h2, h3⟩ | ⟨h1, h2, h3⟩)
    · exact ⟨q, List.mem_append.2 (Or.inl hq), h1, h2, h3⟩
    · exact ⟨p, List.mem_append.2 (Or.inr (List.mem_singleton_self p)), h1, h2, h3⟩

theorem seenBig_append_big (O : GameState) (L : List Pos) (p : Pos)
    (hocc : O.occ p = true) (hbig : 4 ≤ (comp O p).card) :
    seenBig O (L ++ [p]) = insert (comp O p) (seenBig O L) := by
  unfold seenBig
  rw [List.toFinset_append]
  have h1 : (L.toFinset ∪ [p].toFinset) = insert p L.toFinset := by
    show L.toFinset ∪ {p} = insert p L.toFinset
    rw [Finset.union_comm, ← Finset.insert_eq]
  rw [h1, Finset.filter_insert, if_pos ⟨hocc, hbig⟩, Finset.image_insert]

theorem seenBig_append_small (O : GameState) (L : List Pos) (p : Pos)
    (h : ¬ (O.occ p = true ∧ 4 ≤ (comp O p).card)) :
    seenBig O (L ++ [p]) = seenBig O L := by
  unfold seenBig
  rw [List.toFinset_append]
  have h1 : (L.toFinset ∪ [p].toFinset) = insert p L.toFinset := by
    show L.toFinset ∪ {p} = insert p L.toFinset
    rw [Finset.union_comm, ← Finset.insert_eq]
  rw [h1, Finset.filter_insert, if_neg h]

theorem removeCells_spec (lc : List Pos) :
    ∀ (occ : Pos → Bool) (col : Pos → Nat) (r : Pos),
      (removeCells occ col lc).1 r = (if r ∈ lc then false else occ r) ∧
      (removeCells occ col lc).2 r = (if r ∈ lc then 0 else col r) := by
  induction lc with
  | nil => intro occ col r; simp [removeCells]
  | cons a rest ih =>
      intro occ col r
      have h := ih (upd occ a false) (upd col a 0) r
      simp only [removeCells]
      constructor
      · rw [h.1]
        by_cases hr : r ∈ rest
        · rw [if_pos hr, if_pos (List.mem_cons_of_mem a hr)]
        · rw [if_neg hr]
          by_cases ha : r = a
          · subst ha
            rw [upd_same, if_pos (List.mem_cons_self r rest)]
          · rw [upd_ne occ a r false ha, if_neg (by simp [ha, hr])]
      · rw [h.2]
        by_cases hr : r ∈ rest
        · rw [if_pos hr, if_pos (List.mem_cons_of_mem a hr)]
        · rw [if_neg hr]
          by_cases ha : r = a
          · subst ha
            rw [upd_same, if_pos (List.mem_cons_self r rest)]
          · rw [upd_ne col a r 0 ha, if_neg (by simp [ha, hr])]

/-- The invariant carried through the clearGroups scan: after the scan
has processed L, visited is exactly the union of the explored groups,
the grids are the original grids with the removed cells zeroed, and
score / total / groups account exactly for the big groups seen. -/
def ScanInv (O : GameState) (mult : ℚ) (L : List Pos) (acc : ClearAcc) : Prop :=
  (∀ r : Pos, acc.visited r = true ↔ r ∈ seenSet O L) ∧
  (∀ r : Pos, acc.occ r = (if r ∈ remSet O L then false else O.occ r)) ∧
  (∀ r : Pos, acc.col r = (if r ∈ remSet O L then 0 else O.col r)) ∧
  acc.score = O.score +
    Finset.sum (seenBig O L) (fun C => ctrunc ((C.card : ℚ) * 100 * mult)) ∧
  acc.total = Finset.sum (seenBig O L) (fun C => C.card) ∧
  acc.groups = (seenBig O L).card

theorem scanInv_nil (O : GameState) (mult : ℚ) :
    ScanInv O mult [] ⟨O.occ, O.col, fun _ => false, O.score, 0, 0⟩ := by
  have hseen : seenSet O [] = ∅ := by
    ext r; simp [mem_seenSet]
  have hrem : remSet O [] = ∅ := by
    ext r; simp [mem_remSet]
  have hbig : seenBig O [] = ∅ := by
    simp [seenBig]
  refine ⟨?_, ?_, ?_, ?_, ?_, ?_⟩ <;> simp [hseen, hrem, hbig]

theorem clearStep_inv (O : GameState) (mult : ℚ) (L : List Pos) (acc : ClearAcc) (p : Pos)
    (h : ScanInv O mult L acc) : ScanInv O mult (L ++ [p]) (clearStep mult acc p) := by
  obtain ⟨hvis, hoccI, hcolI, hscore, htotal, hgroups⟩ := h
  by_cases hO : O.occ p = true
  case neg =>
    have hne : O.occ p = false := eq_false_of_ne_true hO
    have haccp : acc.occ p = false := by
      rw [hoccI p]
      by_cases hr : p ∈ remSet O L
      · rw [if_pos hr]
      · rw [if_neg hr]; exact hne
    have hstep : clearStep mult acc p = acc := by
      unfold clearStep
      rw [if_neg]
      rintro ⟨ha, -⟩
      rw [haccp] at ha
      exact absurd ha (by simp)
    have hS : seenSet O (L ++ [p]) = seenSet O L := by
      ext r
      rw [mem_seenSet_append]
      constructor
      · rintro (hh | ⟨h1, -⟩)
        · exact hh
        · rw [hne] at h1; exact absurd h1 (by simp)
      · exact Or.inl
    have hR : remSet O (L ++ [p]) = remSet O L := by
      ext r
      rw [mem_remSet_append]
      constructor
      · rintro (hh | ⟨h1, -⟩)
        · exact hh
        · rw [hne] at h1; exact absurd h1 (by simp)
      · exact Or.inl
    have hB : seenBig O (L ++ [p]) = seenBig O L :=
      seenBig_append_small O L p (fun hh => hO hh.1)
    rw [hstep]
    exact ⟨fun r => by rw [hS]; exact hvis r, fun r => by rw [hR]; exact hoccI r,
      fun r => by rw [hR]; exact hcolI r, by rw [hB]; exact hscore,
      by rw [hB]; exact htotal, by rw [hB]; exact hgroups⟩
  by_cases hPseen : p ∈ seenSet O L
  case pos =>
    have haccv : acc.visited p = true := (hvis p).2 hPseen
    have hstep : clearStep mult acc p = acc := by
      unfold clearStep
      rw [if_neg]
      rintro ⟨-, hb⟩
      rw [haccv] at hb
      exact absurd hb (by simp)
    obtain ⟨t, ht, hot, hpt⟩ := (mem_seenSet O L p).1 hPseen
    have hct : comp O p = comp O t := comp_eq_of_mem O hot hpt
    have hS : seenSet O (L ++ [p]) = seenSet O L := by
      ext r
      rw [mem_seenSet_append]
      constructor
      · rintro (hh | ⟨-, hrc⟩)
        · exact hh
        · exact (mem_seenSet O L r).2 ⟨t, ht, hot, hct ▸ hrc⟩
      · exact Or.inl
    have hR : remSet O (L ++ [p]) = remSet O L := by
      ext r
      rw [mem_remSet_append]
      constructor
      · rintro (hh | ⟨-, hbig, hrc⟩)
        · exact hh
        · exact (mem_remSet O L r).2 ⟨t, ht, hot, hct ▸ hbig, hct ▸ hrc⟩
      · exact Or.inl
    have hB : seenBig O (L ++ [p]) = seenBig O L := by
      by_cases hbigp : 4 ≤ (comp O p).card
      · rw [seenBig_append_big O L p hO hbigp]
        refine Finset.insert_eq_self.2 ?_
        refine Finset.mem_image.2 ⟨t, Finset.mem_filter.2
          ⟨List.mem_toFinset.2 ht, hot, hct ▸ hbigp⟩, hct.symm⟩
      · exact seenBig_append_small O L p (fun hh => hbigp hh.2)
    rw [hstep]
    exact ⟨fun r => by rw [hS]; exact hvis r, fun r => by rw [hR]; exact hoccI r,
      fun r => by rw [hR]; exact hcolI r, by rw [hB]; exact hscore,
      by rw [hB]; exact htotal, by rw [hB]; exact hgroups⟩
  -- the exploring case: p occupied and not yet seen
  have hremp : p ∉ remSet O L := fun hr => hPseen (remSet_subset_seenSet O L p hr)
  have haccp : acc.occ p = true := by rw [hoccI p, if_neg hremp]; exact hO
  have haccc : acc.col p = O.col p := by rw [hcolI p, if_neg hremp]
  have haccv : acc.visited p = false := by
    cases hvv : acc.visited p
    · rfl
    · exact absurd ((hvis p).1 hvv) hPseen
  have hguard : acc.occ p = true ∧ acc.visited p = false := ⟨haccp, haccv⟩
  have hdisjSeen : ∀ q ∈ comp O p, q ∉ seenSet O L := by
    intro q hq hqseen
    obtain ⟨t, ht, hot, hqt⟩ := (mem_seenSet O L q).1 hqseen
    have h1 : comp O q = comp O t := comp_eq_of_mem O hot hqt
    have h2 : comp O q = comp O p := comp_eq_of_mem O hO hq
    have hp_in : p ∈ comp O t := by
      rw [← h1, h2]
      exact comp_self O p
    exact hPseen ((mem_seenSet O L p).2 ⟨t, ht, hot, hp_in⟩)
  have hdisjV : ∀ q ∈ comp O p, acc.visited q = false := by
    intro q hq
    cases hvv : acc.visited q
    · rfl
    · exact absurd ((hvis q).1 hvv) (hdisjSeen q hq)
  have hagree : ∀ r : Pos, acc.visited r = false →
      (acc.occ r = O.occ r ∧ acc.col r = O.col r) := by
    intro r hr
    have hrs : r ∉ seenSet O L := by
      intro hmem
      rw [(hvis r).2 hmem] at hr
      exact absurd hr (by simp)
    have hrr : r ∉ remSet O L := fun hmem => hrs (remSet_subset_seenSet O L r hmem)
    exact ⟨by rw [hoccI r, if_neg hrr], by rw [hcolI r, if_neg hrr]⟩
  obtain ⟨hnodup, hcoords, hviff⟩ :=
    dfsRun acc.occ acc.col (acc.col p) acc.visited p haccp rfl haccv
  set res := dfs acc.occ acc.col (acc.col p) DFSFUEL (p.1.val : Int) (p.2.val : Int)
    ⟨acc.visited, []⟩ with hres
  have hcc : ∀ q : Pos, q ∈ res.coords ↔ q ∈ comp O p := by
    intro q
    rw [hcoords q,
      reachAvoid_congr acc.occ O.occ acc.col O.col (acc.col p) acc.visited hagree p q,
      haccc]
    exact reachAvoid_eq_comp O acc.visited p hO hdisjV q
  have hlen : res.coords.length = (comp O p).card := by
    have hts : res.coords.toFinset = comp O p := by
      ext q
      rw [List.mem_toFinset]
      exact hcc q
    rw [← hts]
    exact (List.toFinset_card_of_nodup hnodup).symm
  have hseenA : ∀ r : Pos, res.visited r = true ↔ r ∈ seenSet O (L ++ [p]) := by
    intro r
    rw [hviff r, hvis r, mem_seenSet_append]
    constructor
    · rintro (hh | hh)
      · exact Or.inl hh
      · exact Or.inr ⟨hO, (hcc r).1 hh⟩
    · rintro (hh | ⟨-, hh⟩)
      · exact Or.inl hh
      · exact Or.inr ((hcc r).2 hh)
  have hnotmem : comp O p ∉ seenBig O L := by
    intro hmem
    obtain ⟨t, htf, hct⟩ := Finset.mem_image.1 hmem
    obtain ⟨htL, hot, hbigt⟩ := Finset.mem_filter.1 htf
    have hp_in : p ∈ comp O t := hct ▸ comp_self O p
    exact hPseen ((mem_seenSet O L p).2 ⟨t, List.mem_toFinset.1 htL, hot, hp_in⟩)
  have hstep : clearStep mult acc p =
      (if 4 ≤ res.coords.length then
        { occ := (removeCells acc.occ acc.col res.coords).1,
          col := (removeCells acc.occ acc.col res.coords).2,
          visited := res.visited,
          score := acc.score + ctrunc ((res.coords.length : ℚ) * 100 * mult),
          total := acc.total + res.coords.length,
          groups := acc.groups + 1 }
      else { acc with visited := res.visited }) := by
    unfold clearStep
    rw [if_pos hguard]
  rw [hstep]
  by_cases hbig : 4 ≤ res.coords.length
  · rw [if_pos hbig]
    have hbigcard : 4 ≤ (comp O p).card := by rwa [hlen] at hbig
    have hremA : ∀ r : Pos,
        r ∈ remSet O (L ++ [p]) ↔ (r ∈ remSet O L ∨ r ∈ comp O p) := by
      intro r
      rw [mem_remSet_append]
      constructor
      · rintro (hh | ⟨-, -, hh⟩)
        · exact Or.inl hh
        · exact Or.inr hh
      · rintro (hh | hh)
        · exact Or.inl hh
        · exact Or.inr ⟨hO, hbigcard, hh⟩
    refine ⟨hseenA, ?_, ?_, ?_, ?_, ?_⟩
    · intro r
      show (removeCells acc.occ acc.col res.coords).1 r = _
      rw [(removeCells_spec res.coords acc.occ acc.col r).1, hoccI r]
      by_cases hrc : r ∈ comp O p
      · rw [if_pos ((hcc r).2 hrc), if_pos ((hremA r).2 (Or.inr hrc))]
      · rw [if_neg (fun hh => hrc ((hcc r).1 hh))]
        refine if_congr ?_ rfl rfl
        rw [hremA r]
        exact ⟨Or.inl, fun hh => hh.resolve_right hrc⟩
    · intro r
      show (removeCells acc.occ acc.col res.coords).2 r = _
      rw [(removeCells_spec res.coords acc.occ acc.col r).2, hcolI r]
      by_cases hrc : r ∈ comp O p
      · rw [if_pos ((hcc r).2 hrc), if_pos ((hremA r).2 (Or.inr hrc))]
      · rw [if_neg (fun hh => hrc ((hcc r).1 hh))]
        refine if_congr ?_ rfl rfl
        rw [hremA r]
        exact ⟨Or.inl, fun hh => hh.resolve_right hrc⟩
    · show acc.score + ctrunc ((res.coords.length : ℚ) * 100 * mult) = _
      rw [hscore, seenBig_append_big O L p hO hbigcard, Finset.sum_insert hnotmem, hlen]
      ring
    · show acc.total + res.coords.length = _
      rw [htotal, seenBig_append_big O L p hO hbigcard, Finset.sum_insert hnotmem, hlen]
      omega
    · show acc.groups + 1 = _
      rw [hgroups, seenBig_append_big O L p hO hbigcard,
        Finset.card_insert_of_not_mem hnotmem]
  · rw [if_neg hbig]
    have hnotbig : ¬ 4 ≤ (comp O p).card := by rwa [hlen] at hbig
    have hremA : ∀ r : Pos, r ∈ remSet O (L ++ [p]) ↔ r ∈ remSet O L := by
      intro r
      rw [mem_remSet_append]
      constructor
      · rintro (hh | ⟨-, hh, -⟩)
        · exact hh
        · exact absurd hh hnotbig
      · exact Or.inl
    have hB : seenBig O (L ++ [p]) = seenBig O L :=
      seenBig_append_small O L p (fun hh => hnotbig hh.2)
    refine ⟨hseenA, ?_, ?_, ?_, ?_, ?_⟩
    · intro r
      show acc.occ r = _
      rw [hoccI r]
      exact (if_congr (hremA r).symm rfl rfl)
    · intro r
      show acc.col r = _
      rw [hcolI r]
      exact (if_congr (hremA r).symm rfl rfl)
    · show acc.score = _
      rw [hB]; exact hscore
    · show acc.total = _
      rw [hB]; exact htotal
    · show acc.groups = _
      rw [hB]; exact hgroups

theorem foldl_scanInv (O : GameState) (mult : ℚ) :
    ∀ (L2 L1 : List Pos) (acc : ClearAcc), ScanInv O mult L1 acc →
      ScanInv O mult (L1 ++ L2) (L2.foldl (clearStep mult) acc) := by
  intro L2
  induction L2 with
  | nil => intro L1 acc h; simpa using h
  | cons p rest ih =>
      intro L1 acc h
      have h1 := clearStep_inv O mult L1 acc p h
      have h2 := ih (L1 ++ [p]) (clearStep mult acc p) h1
      simpa [List.append_assoc] using h2

theorem mem_allPositions (p : Pos) : p ∈ allPositions := by
  unfold allPositions
  rw [List.mem_flatMap]
  refine ⟨p.1, List.mem_finRange p.1, ?_⟩
  rw [List.mem_map]
  exact ⟨p.2, List.mem_finRange p.2, rfl⟩

theorem seenSet_all (O : GameState) (r : Pos) :
    r ∈ seenSet O allPositions ↔ O.occ r = true := by
  rw [mem_seenSet]
  constructor
  · rintro ⟨q, -, hq, hr⟩
    exact (comp_occ O hq hr).1
  · intro hr
    exact ⟨r, mem_allPositions r, hr, comp_self O r⟩

theorem remSet_all (O : GameState) (r : Pos) :
    r ∈ remSet O allPositions ↔ bigAt O r := by
  rw [mem_remSet]
  constructor
  · rintro ⟨q, -, hq, hbig, hr⟩
    have hocc := (comp_occ O hq hr).1
    have hce : comp O r = comp O q := comp_eq_of_mem O hq hr
    exact ⟨hocc, by rwa [hce]⟩
  · rintro ⟨h1, h2⟩
    exact ⟨r, mem_allPositions r, h1, h2, comp_self O r⟩

theorem seenBig_all (O : GameState) : seenBig O allPositions = bigComps O := by
  unfold seenBig bigComps
  have h1 : allPositions.toFinset = (Finset.univ : Finset Pos) := by
    apply Finset.eq_univ_of_forall
    intro p
    exact List.mem_toFinset.2 (mem_allPositions p)
  rw [h1]

/-- The master description of clearGroups: on any board it removes
exactly the cells of the size-at-least-4 groups, adds for every such
group the truncated product of its size, 100 and the multiplier to the
score, returns the total number of removed cells, adds the number of
removed groups to clears, and bumps level by one exactly when a group
was removed and the new clears quotient reaches the level. -/
theorem clearGroups_run (mult : ℚ) (st : GameState) :
    (∀ r : Pos, (clearGroups mult st).2.occ r =
      (if bigAt st r then false else st.occ r)) ∧
    (∀ r : Pos, (clearGroups mult st).2.col r =
      (if bigAt st r then 0 else st.col r)) ∧
    (clearGroups mult st).2.score = st.score +
      Finset.sum (bigComps st) (fun C => ctrunc ((C.card : ℚ) * 100 * mult)) ∧
    (clearGroups mult st).1 = Finset.sum (bigComps st) (fun C => C.card) ∧
    (clearGroups mult st).2.clears = st.clears + (bigComps st).card ∧
    (clearGroups mult st).2.level =
      (if 0 < (bigComps st).card ∧ st.level ≤ (st.clears + (bigComps st).card) / 5
       then st.level + 1 else st.level) := by
  have hinv := foldl_scanInv st mult allPositions []
    ⟨st.occ, st.col, fun _ => false, st.score, 0, 0⟩ (scanInv_nil st mult)
  rw [List.nil_append] at hinv
  have haux : clearGroupsAux mult st = allPositions.foldl (clearStep mult)
      ⟨st.occ, st.col, fun _ => false, st.score, 0, 0⟩ := rfl
  rw [← haux] at hinv
  obtain ⟨hvis, hoccI, hcolI, hscore, htotal, hgroups⟩ := hinv
  have hgroups2 : (clearGroupsAux mult st).groups = (bigComps st).card := by
    rw [hgroups, seenBig_all]
  have e_occ : (clearGroups mult st).2.occ = (clearGroupsAux mult st).occ := by
    simp only [clearGroups]
  have e_col : (clearGroups mult st).2.col = (clearGroupsAux mult st).col := by
    simp only [clearGroups]
  have e_score : (clearGroups mult st).2.score = (clearGroupsAux mult st).score := by
    simp only [clearGroups]
  have e_total : (clearGroups mult st).1 = (clearGroupsAux mult st).total := by
    simp only [clearGroups]
  have e_clears : (clearGroups mult st).2.clears =
      (if 0 < (clearGroupsAux mult st).groups then
        st.clears + (clearGroupsAux mult st).groups else st.clears) := by
    simp only [clearGroups]
  have e_level : (clearGroups mult st).2.level =
      (if 0 < (clearGroupsAux mult st).groups ∧
          st.level ≤ (if 0 < (clearGroupsAux mult st).groups then
            st.clears + (clearGroupsAux mult st).groups else st.clears) / 5
        then st.level + 1 else st.level) := by
    simp only [clearGroups]
  have hgoal_occ : ∀ r : Pos, (clearGroups mult st).2.occ r =
      (if bigAt st r then false else st.occ r) := by
    intro r
    rw [e_occ, hoccI r]
    exact if_congr (remSet_all st r) rfl rfl
  have hgoal_col : ∀ r : Pos, (clearGroups mult st).2.col r =
      (if bigAt st r then 0 else st.col r) := by
    intro r
    rw [e_col, hcolI r]
    exact if_congr (remSet_all st r) rfl rfl
  have hgoal_score : (clearGroups mult st).2.score = st.score +
      Finset.sum (bigComps st) (fun C => ctrunc ((C.card : ℚ) * 100 * mult)) := by
    rw [e_score, hscore, seenBig_all]
  have hgoal_total : (clearGroups mult st).1 =
      Finset.sum (bigComps st) (fun C => C.card) := by
    rw [e_total, htotal, seenBig_all]
  have hgoal_clears : (clearGroups mult st).2.clears =
      st.clears + (bigComps st).card := by
    rw [e_clears, hgroups2]
    by_cases hz : 0 < (bigComps st).card
    · rw [if_pos hz]
    · rw [if_neg hz]
      omega
  have hgoal_level : (clearGroups mult st).2.level =
      (if 0 < (bigComps st).card ∧ st.level ≤ (st.clears + (bigComps st).card) / 5
       then st.level + 1 else st.level) := by
    rw [e_level, hgroups2]
    by_cases hz : 0 < (bigComps st).card
    · rw [if_pos hz]
    · rw [if_neg (show ¬ (0 < (bigComps st).card ∧ st.level ≤
          (if 0 < (bigComps st).card then st.clears + (bigComps st).card else st.clears) / 5)
          from fun hh => hz hh.1)]
      rw [if_neg (show ¬ (0 < (bigComps st).card ∧
          st.level ≤ (st.clears + (bigComps st).card) / 5) from fun hh => hz hh.1)]
  exact ⟨hgoal_occ, hgoal_col, hgoal_score, hgoal_total, hgoal_clears, hgoal_level⟩

/-! ## Score accounting (C1), group threshold (C3), level-up (C6) -/

theorem ctrunc_eq_floor (q : ℚ) (h : 0 ≤ q) : ctrunc q = Int.floor q := by
  unfold ctrunc
  rw [if_neg (not_lt.2 h)]

theorem floor_chain_mult (n d : Nat) :
    Int.floor ((n : ℚ) * 100 * (1 + (d : ℚ) / 2)) = (n : Int) * 100 + (n : Int) * 50 * d := by
  have h : ((n : ℚ) * 100 * (1 + (d : ℚ) / 2)) =
      (((n : Int) * 100 + (n : Int) * 50 * d : Int) : ℚ) := by
    push_cast
    ring
  rw [h, Int.floor_intCast]

/-- C1.  A clearGroups pass at chain depth d (multiplier 1 + 0.5*d)
adds to the score exactly the sum, over the removed groups, of
floor(n * 100 * (1 + 0.5*d)) where n is the group's size; each such
floor equals n*100 + n*50*d exactly (the double product is an exact
integer, so the C truncation is the floor); and when the board has a
single clearable group of size n, the pass adds exactly that one
amount and nothing else to the score. -/
theorem c1_score_accounting (st : GameState) (d : Nat) :
    (clearGroups (1 + (d : ℚ) / 2) st).2.score =
      st.score + Finset.sum (bigComps st)
        (fun C => Int.floor ((C.card : ℚ) * 100 * (1 + (d : ℚ) / 2))) ∧
    (∀ C ∈ bigComps st,
      Int.floor ((C.card : ℚ) * 100 * (1 + (d : ℚ) / 2)) =
        (C.card : Int) * 100 + (C.card : Int) * 50 * d) ∧
    (∀ C : Finset Pos, bigComps st = {C} →
      (clearGroups (1 + (d : ℚ) / 2) st).2.score =
        st.score + Int.floor ((C.card : ℚ) * 100 * (1 + (d : ℚ) / 2))) := by
  have hrun := (clearGroups_run (1 + (d : ℚ) / 2) st).2.2.1
  have hsum : Finset.sum (bigComps st)
      (fun C => ctrunc ((C.card : ℚ) * 100 * (1 + (d : ℚ) / 2))) =
      Finset.sum (bigComps st)
      (fun C => Int.floor ((C.card : ℚ) * 100 * (1 + (d : ℚ) / 2))) :=
    Finset.sum_congr rfl (fun C _ => ctrunc_eq_floor _ (by positivity))
  refine ⟨by rw [hrun, hsum], fun C _ => floor_chain_mult C.card d, ?_⟩
  intro C hC
  rw [hrun, hsum, hC, Finset.sum_singleton]

/-- C3.  A maximal 4-connected same-colour group of size exactly 3 is
untouched by a clearGroups pass (every cell keeps its occupancy and
colour), while a group of size exactly 4 is removed entirely: all four
cells become unoccupied with colour 0, never only some of them. -/
theorem c3_group_threshold (st : GameState) (mult : ℚ) (p : Pos)
    (hocc : st.occ p = true) :
    ((comp st p).card = 3 →
      ∀ q ∈ comp st p, (clearGroups mult st).2.occ q = st.occ q ∧
        (clearGroups mult st).2.occ q = true ∧
        (clearGroups mult st).2.col q = st.col q) ∧
    ((comp st p).card = 4 →
      ∀ q ∈ comp st p, (clearGroups mult st).2.occ q = false ∧
        (clearGroups mult st).2.col q = 0) := by
  have hrun := clearGroups_run mult st
  constructor
  · intro h3 q hq
    have hqocc : st.occ q = true := (comp_occ st hocc hq).1
    have hceq : comp st q = comp st p := comp_eq_of_mem st hocc hq
    have hnotbig : ¬ bigAt st q := by
      rintro ⟨-, hb⟩
      rw [hceq, h3] at hb
      omega
    refine ⟨?_, ?_, ?_⟩
    · rw [hrun.1 q, if_neg hnotbig]
    · rw [hrun.1 q, if_neg hnotbig]
      exact hqocc
    · rw [hrun.2.1 q, if_neg hnotbig]
  · intro h4 q hq
    have hqocc : st.occ q = true := (comp_occ st hocc hq).1
    have hceq : comp st q = comp st p := comp_eq_of_mem st hocc hq
    have hbig : bigAt st q := ⟨hqocc, by rw [hceq, h4]⟩
    exact ⟨by rw [hrun.1 q, if_pos hbig], by rw [hrun.2.1 q, if_pos hbig]⟩

/-- C6.  A clearGroups pass adds the number of removed groups to the
cumulative clears counter; the level rises by at most 1 per call, and
it rises by exactly 1 precisely when at least one group was removed and
the new clears total has reached 5 * level — so the level goes up the
first time clears reaches 5 * level and never before. -/
theorem c6_level_up (st : GameState) (mult : ℚ) :
    (clearGroups mult st).2.clears = st.clears + (bigComps st).card ∧
    (clearGroups mult st).2.level ≤ st.level + 1 ∧
    ((clearGroups mult st).2.level = st.level + 1 ↔
      (0 < (bigComps st).card ∧ 5 * st.level ≤ st.clears + (bigComps st).card)) ∧
    (st.clears + (bigComps st).card < 5 * st.level →
      (clearGroups mult st).2.level = st.level) := by
  have hrun := clearGroups_run mult st
  have hlev := hrun.2.2.2.2.2
  have hdiv : st.level ≤ (st.clears + (bigComps st).card) / 5 ↔
      5 * st.level ≤ st.clears + (bigComps st).card := by
    rw [Nat.le_div_iff_mul_le (by omega)]
    omega
  refine ⟨hrun.2.2.2.2.1, ?_, ?_, ?_⟩
  · rw [hlev]
    by_cases hc : 0 < (bigComps st).card ∧
        st.level ≤ (st.clears + (bigComps st).card) / 5
    · rw [if_pos hc]
    · rw [if_neg hc]
      omega
  · rw [hlev]
    constructor
    · intro heq
      by_cases hc : 0 < (bigComps st).card ∧
          st.level ≤ (st.clears + (bigComps st).card) / 5
      · exact ⟨hc.1, hdiv.1 hc.2⟩
      · rw [if_neg hc] at heq
        omega
    · rintro ⟨h1, h2⟩
      rw [if_pos ⟨h1, hdiv.2 h2⟩]
  · intro hlt
    rw [hlev, if_neg]
    rintro ⟨-, hc⟩
    have := hdiv.1 hc
    omega

/-- Example board for the witnesses: a 3-stack of colour 1 in column 0
(rows 17..19) and a 2x2 square of colour 2 in columns 3..4, rows
18..19. -/
def exThree : GameState :=
  { occ := fun p => decide ((p.1.val = 17 ∨ p.1.val = 18 ∨ p.1.val = 19) ∧ p.2.val = 0) ||
      decide ((p.1.val = 18 ∨ p.1.val = 19) ∧ (p.2.val = 3 ∨ p.2.val = 4)),
    col := fun p =>
      if (p.1.val = 17 ∨ p.1.val = 18 ∨ p.1.val = 19) ∧ p.2.val = 0 then 1
      else if (p.1.val = 18 ∨ p.1.val = 19) ∧ (p.2.val = 3 ∨ p.2.val = 4) then 2 else 0,
    score := 0, level := 1, clears := 0 }

/-- Example board with a single clearable group: a 4-stack of colour 1
in column 0, rows 16..19. -/
def exFour : GameState :=
  { occ := fun p => decide (16 ≤ p.1.val ∧ p.2.val = 0),
    col := fun p => if 16 ≤ p.1.val ∧ p.2.val = 0 then 1 else 0,
    score := 250, level := 1, clears := 0 }

/-- The cells of exFour's single group. -/
def exC : Finset Pos :=
  {(⟨16, by decide⟩, ⟨0, by decide⟩), (⟨17, by decide⟩, ⟨0, by decide⟩),
   (⟨18, by decide⟩, ⟨0, by decide⟩), (⟨19, by decide⟩, ⟨0, by decide⟩)}

/-- exFour with the clears counter one group short of the level-up
threshold. -/
def exLevel : GameState :=
  { occ := exFour.occ, col := exFour.col, score := 0, level := 1, clears := 4 }

set_option maxRecDepth 1000000 in
theorem c1_witness :
    bigComps exFour = {exC} ∧
    exC ∈ bigComps exFour ∧
    Int.floor ((exC.card : ℚ) * 100 * (1 + (1 : ℚ) / 2)) =
      (exC.card : Int) * 100 + (exC.card : Int) * 50 * 1 ∧
    (clearGroups (1 + (1 : ℚ) / 2) exFour).2.score = exFour.score +
      Int.floor ((exC.card : ℚ) * 100 * (1 + (1 : ℚ) / 2)) :=
  ⟨by decide, by decide,
   (c1_score_accounting exFour 1).2.1 exC (by decide),
   (c1_score_accounting exFour 1).2.2 exC (by decide)⟩

set_option maxRecDepth 1000000 in
theorem c3_witness :
    (comp exThree (⟨17, by decide⟩, ⟨0, by decide⟩)).card = 3 ∧
    (comp exThree (⟨18, by decide⟩, ⟨3, by decide⟩)).card = 4 ∧
    (clearGroups 1 exThree).2.occ (⟨17, by decide⟩, ⟨0, by decide⟩) = true ∧
    (clearGroups 1 exThree).2.col (⟨17, by decide⟩, ⟨0, by decide⟩) =
      exThree.col (⟨17, by decide⟩, ⟨0, by decide⟩) ∧
    (clearGroups 1 exThree).2.occ (⟨18, by decide⟩, ⟨3, by decide⟩) = false ∧
    (clearGroups 1 exThree).2.col (⟨18, by decide⟩, ⟨3, by decide⟩) = 0 := by
  have h3 := (c3_group_threshold exThree 1 (⟨17, by decide⟩, ⟨0, by decide⟩) (by decide)).1
    (by decide) (⟨17, by decide⟩, ⟨0, by decide⟩) (by decide)
  have h4 := (c3_group_threshold exThree 1 (⟨18, by decide⟩, ⟨3, by decide⟩) (by decide)).2
    (by decide) (⟨18, by decide⟩, ⟨3, by decide⟩) (by decide)
  exact ⟨by decide, by decide, h3.2.1, h3.2.2, h4.1, h4.2⟩

set_option maxRecDepth 1000000 in
theorem c6_witness :
    0 < (bigComps exLevel).card ∧
    5 * exLevel.level ≤ exLevel.clears + (bigComps exLevel).card ∧
    (clearGroups 1 exLevel).2.level = exLevel.level + 1 :=
  ⟨by decide, by decide, (c6_level_up exLevel 1).2.2.1.mpr ⟨by decide, by decide⟩⟩

/-! ## Characterising gravityFailSafe and gravity -/

theorem fallRowA_ge (occ : Pos → Bool) (x : Fin WIDTH) :
    ∀ (n : Nat) (y : Fin HEIGHT), y.val ≤ (fallRowA occ x n y).val := by
  intro n
  induction n with
  | zero => intro y; exact le_refl _
  | succ n ih =>
      intro y
      show (fallRowA occ x (n + 1) y).val ≥ y.val
      unfold fallRowA
      by_cases h : y.val + 1 < HEIGHT
      · rw [dif_pos h]
        by_cases h2 : occ (⟨y.val + 1, h⟩, x) = false
        · rw [if_pos h2]
          have := ih ⟨y.val + 1, h⟩
          simp only [] at this
          omega
        · rw [if_neg h2]
      · rw [dif_neg h]

theorem landPos_ge (occ : Pos → Bool) (p : Pos) :
    p.1.val ≤ (landPos occ p).1.val ∧ (landPos occ p).2 = p.2 :=
  ⟨fallRowA_ge occ p.2 HEIGHT p.1, rfl⟩

theorem gravStep_skip (occ0 : Pos → Bool) (col0 : Pos → Nat) (a : GravAcc) (p : Pos)
    (h : occ0 p = false) : gravStep occ0 col0 a p = a := by
  unfold gravStep
  rw [if_neg (by simp [h])]

theorem gravStep_go (occ0 : Pos → Bool) (col0 : Pos → Nat) (a : GravAcc) (p : Pos)
    (h : occ0 p = true) :
    gravStep occ0 col0 a p =
      ⟨a.moved || decide (landPos occ0 p ≠ p), upd a.occ (landPos occ0 p) true,
       upd a.col (landPos occ0 p) (col0 p)⟩ := by
  unfold gravStep
  rw [if_pos h]

theorem gravFold_spec (occ0 : Pos → Bool) (col0 : Pos → Nat) :
    ∀ (L : List Pos) (a0 : GravAcc),
      ((L.foldl (gravStep occ0 col0) a0).moved = true ↔
        (a0.moved = true ∨ ∃ s ∈ L, occ0 s = true ∧ landPos occ0 s ≠ s)) ∧
      (∀ q : Pos, (L.foldl (gravStep occ0 col0) a0).occ q = true ↔
        (a0.occ q = true ∨ ∃ s ∈ L, occ0 s = true ∧ landPos occ0 s = q)) ∧
      (∀ q : Pos, (L.foldl (gravStep occ0 col0) a0).occ q = true →
        ((∃ s : Pos, occ0 s = true ∧ landPos occ0 s = q ∧
           (L.foldl (gravStep occ0 col0) a0).col q = col0 s) ∨
         (a0.occ q = true ∧ (L.foldl (gravStep occ0 col0) a0).col q = a0.col q))) ∧
      (∀ q : Pos, (L.foldl (gravStep occ0 col0) a0).occ q = false →
        (L.foldl (gravStep occ0 col0) a0).col q = a0.col q) := by
  intro L
  induction L with
  | nil =>
      intro a0
      refine ⟨by simp, fun q => by simp, fun q hq => Or.inr ⟨hq, rfl⟩, fun q _ => rfl⟩
  | cons p rest ih =>
      intro a0
      rw [List.foldl_cons]
      obtain ⟨ihm, iho, ihc, ihc0⟩ := ih (gravStep occ0 col0 a0 p)
      by_cases hp : occ0 p = true
      · have hstep := gravStep_go occ0 col0 a0 p hp
        have hm1 : (gravStep occ0 col0 a0 p).moved = true ↔
            (a0.moved = true ∨ landPos occ0 p ≠ p) := by
          rw [hstep]
          simp
        have ho1 : ∀ q : Pos, (gravStep occ0 col0 a0 p).occ q = true ↔
            (q = landPos occ0 p ∨ a0.occ q = true) := by
          intro q
          rw [hstep]
          exact upd_true_iff a0.occ (landPos occ0 p) q
        refine ⟨?_, ?_, ?_, ?_⟩
        · constructor
          · intro h
            rcases ihm.1 h with h | ⟨s, hs, h1, h2⟩
            · rcases hm1.1 h with h | h
              · exact Or.inl h
              · exact Or.inr ⟨p, List.mem_cons_self p rest, hp, h⟩
            · exact Or.inr ⟨s, List.mem_cons_of_mem p hs, h1, h2⟩
          · intro h
            apply ihm.2
            rcases h with h | ⟨s, hs, h1, h2⟩
            · exact Or.inl (hm1.2 (Or.inl h))
            · rcases List.mem_cons.1 hs with rfl | hs
              · exact Or.inl (hm1.2 (Or.inr h2))
              · exact Or.inr ⟨s, hs, h1, h2⟩
        · intro q
          constructor
          · intro h
            rcases (iho q).1 h with h | ⟨s, hs, h1, h2⟩
            · rcases (ho1 q).1 h with h | h
              · exact Or.inr ⟨p, List.mem_cons_self p rest, hp, h.symm⟩
              · exact Or.inl h
            · exact Or.inr ⟨s, List.mem_cons_of_mem p hs, h1, h2⟩
          · intro h
            apply (iho q).2
            rcases h with h | ⟨s, hs, h1, h2⟩
            · exact Or.inl ((ho1 q).2 (Or.inr h))
            · rcases List.mem_cons.1 hs with rfl | hs
              · exact Or.inl ((ho1 q).2 (Or.inl h2.symm))
              · exact Or.inr ⟨s, hs, h1, h2⟩
        · intro q hq
          rcases ihc q hq with ⟨s, h1, h2, h3⟩ | ⟨h1, h2⟩
          · exact Or.inl ⟨s, h1, h2, h3⟩
          · by_cases hql : q = landPos occ0 p
            · refine Or.inl ⟨p, hp, hql.symm, ?_⟩
              rw [h2, hstep]
              show upd a0.col (landPos occ0 p) (col0 p) q = col0 p
              rw [hql]
              exact upd_same a0.col (landPos occ0 p) (col0 p)
            · have ha0 : a0.occ q = true := by
                rcases (ho1 q).1 h1 with h | h
                · exact absurd h hql
                · exact h
              refine Or.inr ⟨ha0, ?_⟩
              rw [h2, hstep]
              show upd a0.col (landPos occ0 p) (col0 p) q = a0.col q
              exact upd_ne a0.col (landPos occ0 p) q (col0 p) hql
        · intro q hq
          have hql : q ≠ landPos occ0 p := by
            intro he
            have h1 : (gravStep occ0 col0 a0 p).occ q = true := (ho1 q).2 (Or.inl he)
            have h2 : (rest.foldl (gravStep occ0 col0) (gravStep occ0 col0 a0 p)).occ q =
                true := (iho q).2 (Or.inl h1)
            rw [hq] at h2
            exact absurd h2 (by simp)
          rw [ihc0 q hq, hstep]
          show upd a0.col (landPos occ0 p) (col0 p) q = a0.col q
          exact upd_ne a0.col (landPos occ0 p) q (col0 p) hql
      · have hne : occ0 p = false := eq_false_of_ne_true hp
        have hstep := gravStep_skip occ0 col0 a0 p hne
        rw [hstep] at ihm iho ihc ihc0 ⊢
        refine ⟨?_, ?_, ihc, ihc0⟩
        · rw [ihm]
          constructor
          · rintro (h | ⟨s, hs, h1, h2⟩)
            · exact Or.inl h
            · exact Or.inr ⟨s, List.mem_cons_of_mem p hs, h1, h2⟩
          · rintro (h | ⟨s, hs, h1, h2⟩)
            · exact Or.inl h
            · rcases List.mem_cons.1 hs with rfl | hs
              · rw [hne] at h1; exact absurd h1 (by simp)
              · exact Or.inr ⟨s, hs, h1, h2⟩
        · intro q
          rw [iho q]
          constructor
          · rintro (h | ⟨s, hs, h1, h2⟩)
            · exact Or.inl h
            · exact Or.inr ⟨s, List.mem_cons_of_mem p hs, h1, h2⟩
          · rintro (h | ⟨s, hs, h1, h2⟩)
            · exact Or.inl h
            · rcases List.mem_cons.1 hs with rfl | hs
              · rw [hne] at h1; exact absurd h1 (by simp)
              · exact Or.inr ⟨s, hs, h1, h2⟩

theorem mem_rowsBottomUp (p : Pos) : p ∈ rowsBottomUp := by
  unfold rowsBottomUp
  rw [List.mem_flatMap]
  refine ⟨p.1, List.mem_reverse.2 (List.mem_finRange p.1), ?_⟩
  rw [List.mem_map]
  exact ⟨p.2, List.mem_finRange p.2, rfl⟩

theorem gravityFailSafe_fst (st : GameState) :
    (gravityFailSafe st).1 = (gravityAux st).moved := rfl

theorem gravityFailSafe_occ_eq (st : GameState) (q : Pos) :
    (gravityFailSafe st).2.occ q = (gravityAux st).occ q := rfl

theorem gravityFailSafe_col_eq (st : GameState) (q : Pos) :
    (gravityFailSafe st).2.col q = (gravityAux st).col q := rfl

theorem gravityFailSafe_score (st : GameState) :
    (gravityFailSafe st).2.score = st.score := rfl

theorem gravityFailSafe_level (st : GameState) :
    (gravityFailSafe st).2.level = st.level := rfl

theorem gravityFailSafe_clears (st : GameState) :
    (gravityFailSafe st).2.clears = st.clears := rfl

/-- The full description of one gravityFailSafe pass: the moved flag
reports whether some occupied cell lands away from itself, a cell is
occupied afterwards exactly when it is the landing position of some
occupied source cell, every cell occupied afterwards carries the colour
of one of its source cells, and every cell left unoccupied has colour
0 (the zeroed tmp buffer). -/
theorem gravityFailSafe_spec (st : GameState) :
    ((gravityFailSafe st).1 = true ↔
      ∃ s : Pos, st.occ s = true ∧ landPos st.occ s ≠ s) ∧
    (∀ q : Pos, (gravityFailSafe st).2.occ q = true ↔
      ∃ s : Pos, st.occ s = true ∧ landPos st.occ s = q) ∧
    (∀ q : Pos, (gravityFailSafe st).2.occ q = true →
      ∃ s : Pos, st.occ s = true ∧ landPos st.occ s = q ∧
        (gravityFailSafe st).2.col q = st.col s) ∧
    (∀ q : Pos, (gravityFailSafe st).2.occ q = false →
      (gravityFailSafe st).2.col q = 0) := by
  obtain ⟨hm, ho, hc, hc0⟩ :=
    gravFold_spec st.occ st.col rowsBottomUp ⟨false, fun _ => false, fun _ => 0⟩
  have haux : gravityAux st =
      rowsBottomUp.foldl (gravStep st.occ st.col) ⟨false, fun _ => false, fun _ => 0⟩ := rfl
  refine ⟨?_, ?_, ?_, ?_⟩
  · rw [gravityFailSafe_fst, haux, hm]
    constructor
    · rintro (h | ⟨s, -, h1, h2⟩)
      · exact absurd h (by simp)
      · exact ⟨s, h1, h2⟩
    · rintro ⟨s, h1, h2⟩
      exact Or.inr ⟨s, mem_rowsBottomUp s, h1, h2⟩
  · intro q
    rw [gravityFailSafe_occ_eq, haux, ho q]
    constructor
    · rintro (h | ⟨s, -, h1, h2⟩)
      · exact absurd h (by simp)
      · exact ⟨s, h1, h2⟩
    · rintro ⟨s, h1, h2⟩
      exact Or.inr ⟨s, mem_rowsBottomUp s, h1, h2⟩
  · intro q hq
    rw [gravityFailSafe_occ_eq, haux] at hq
    rcases hc q hq with ⟨s, h1, h2, h3⟩ | ⟨h1, -⟩
    · refine ⟨s, h1, h2, ?_⟩
      rw [gravityFailSafe_col_eq, haux]
      exact h3
    · exact absurd h1 (by simp)
  · intro q hq
    rw [gravityFailSafe_occ_eq, haux] at hq
    rw [gravityFailSafe_col_eq, haux]
    exact hc0 q hq

/-- A board is settled when no occupied cell can fall any further. -/
def settled (st : GameState) : Prop :=
  ∀ s : Pos, st.occ s = true → landPos st.occ s = s

instance (st : GameState) : Decidable (settled st) := by
  unfold settled; infer_instance

theorem settled_iff_gfs (st : GameState) :
    settled st ↔ (gravityFailSafe st).1 = false := by
  obtain ⟨hm, -, -, -⟩ := gravityFailSafe_spec st
  constructor
  · intro h
    cases hmv : (gravityFailSafe st).1 with
    | false => rfl
    | true =>
        obtain ⟨s, h1, h2⟩ := hm.1 hmv
        exact absurd (h s h1) h2
  · intro h s hs
    by_contra hne
    rw [hm.2 ⟨s, hs, hne⟩] at h
    exact absurd h (by simp)

theorem gfs_occ_of_settled (st : GameState) (h : settled st) (q : Pos) :
    (gravityFailSafe st).2.occ q = st.occ q := by
  obtain ⟨-, ho, -, -⟩ := gravityFailSafe_spec st
  cases hq : st.occ q with
  | true => exact (ho q).2 ⟨q, hq, h q hq⟩
  | false =>
      cases hq2 : (gravityFailSafe st).2.occ q with
      | false => rfl
      | true =>
          obtain ⟨s, h1, h2⟩ := (ho q).1 hq2
          have hsq : s = q := (h s h1).symm.trans h2
          rw [hsq, hq] at h1
          exact absurd h1 (by simp)

theorem gfs_col_of_settled (st : GameState) (h : settled st) (q : Pos)
    (hq : st.occ q = true) : (gravityFailSafe st).2.col q = st.col q := by
  obtain ⟨-, -, hc, -⟩ := gravityFailSafe_spec st
  have hocc : (gravityFailSafe st).2.occ q = true := by
    rw [gfs_occ_of_settled st h q]; exact hq
  obtain ⟨s, h1, h2, h3⟩ := hc q hocc
  have hsq : s = q := (h s h1).symm.trans h2
  rw [h3, hsq]

theorem settled_gfs (st : GameState) (h : settled st) :
    settled (gravityFailSafe st).2 := by
  have hfun : (gravityFailSafe st).2.occ = st.occ := funext (gfs_occ_of_settled st h)
  intro s hs
  rw [hfun] at hs ⊢
  exact h s hs

/-- The termination measure of the gravity loop: total free headroom
below the occupied cells. -/
def gravPotential (st : GameState) : Nat :=
  Finset.sum (Finset.univ.filter fun p : Pos => st.occ p = true)
    (fun p => HEIGHT - 1 - p.1.val)

theorem sum_image_le {α β : Type} [DecidableEq α] [DecidableEq β]
    (s : Finset α) (f : α → β) (g : β → Nat) :
    Finset.sum (s.image f) g ≤ Finset.sum s (fun a => g (f a)) := by
  induction s using Finset.induction_on with
  | empty => simp
  | insert hna ih =>
      rename_i a t
      rw [Finset.image_insert, Finset.sum_insert hna]
      by_cases hmem : f a ∈ t.image f
      · rw [Finset.insert_eq_self.2 hmem]
        exact le_trans ih (Nat.le_add_left _ _)
      · rw [Finset.sum_insert hmem]
        exact Nat.add_le_add_left ih _

theorem gfs_occ_filter (st : GameState) :
    (Finset.univ.filter fun q : Pos => (gravityFailSafe st).2.occ q = true) =
      (Finset.univ.filter fun p : Pos => st.occ p = true).image (landPos st.occ) := by
  obtain ⟨-, ho, -, -⟩ := gravityFailSafe_spec st
  ext q
  simp only [Finset.mem_filter, Finset.mem_image, Finset.mem_univ, true_and]
  constructor
  · intro h
    obtain ⟨s, h1, h2⟩ := (ho q).1 h
    exact ⟨s, h1, h2⟩
  · rintro ⟨s, h1, h2⟩
    exact (ho q).2 ⟨s, h1, h2⟩

theorem gravPotential_lt (st : GameState) (h : (gravityFailSafe st).1 = true) :
    gravPotential (gravityFailSafe st).2 < gravPotential st := by
  obtain ⟨hm, -, -, -⟩ := gravityFailSafe_spec st
  obtain ⟨s0, hs0, hne0⟩ := hm.1 h
  have hbound : gravPotential (gravityFailSafe st).2 ≤
      Finset.sum (Finset.univ.filter fun p : Pos => st.occ p = true)
        (fun p => HEIGHT - 1 - (landPos st.occ p).1.val) := by
    unfold gravPotential
    rw [gfs_occ_filter st]
    exact sum_image_le _ _ _
  have hstrict : Finset.sum (Finset.univ.filter fun p : Pos => st.occ p = true)
      (fun p => HEIGHT - 1 - (landPos st.occ p).1.val) < gravPotential st := by
    unfold gravPotential
    apply Finset.sum_lt_sum
    · intro i _
      have := (landPos_ge st.occ i).1
      omega
    · refine ⟨s0, by simp [hs0], ?_⟩
      have hge := (landPos_ge st.occ s0).1
      have hcol := (landPos_ge st.occ s0).2
      have hrow : (landPos st.occ s0).1.val ≠ s0.1.val := by
        intro he
        exact hne0 (Prod.ext_iff.2 ⟨Fin.ext he, hcol⟩)
      have hlt : (landPos st.occ s0).1.val < HEIGHT := (landPos st.occ s0).1.isLt
      have hh : (0 : Nat) < HEIGHT := by decide
      omega
  omega

theorem card_filter_pos_le (st : GameState) :
    (Finset.univ.filter fun p : Pos => st.occ p = true).card ≤ HEIGHT * WIDTH := by
  calc (Finset.univ.filter fun p : Pos => st.occ p = true).card
      ≤ (Finset.univ : Finset Pos).card := Finset.card_filter_le _ _
    _ = HEIGHT * WIDTH := by rw [Finset.card_univ]; exact card_pos_type

theorem occCount_le (st : GameState) : occCount st ≤ HEIGHT * WIDTH :=
  card_filter_pos_le st

theorem gravPotential_le (st : GameState) :
    gravPotential st ≤ HEIGHT * WIDTH * HEIGHT := by
  have h1 : gravPotential st ≤
      (Finset.univ.filter fun p : Pos => st.occ p = true).card • HEIGHT :=
    Finset.sum_le_card_nsmul _ _ HEIGHT (fun p _ => by
      have hh : (0 : Nat) < HEIGHT := by decide
      omega)
  rw [smul_eq_mul] at h1
  exact le_trans h1 (Nat.mul_le_mul (card_filter_pos_le st) (le_refl HEIGHT))

theorem gravityFuel_settled :
    ∀ (fuel : Nat) (st : GameState), gravPotential st < fuel →
      settled (gravityFuel fuel st) := by
  intro fuel
  induction fuel with
  | zero => intro st h; exact absurd h (Nat.not_lt_zero _)
  | succ n ih =>
      intro st h
      show settled (if (gravityFailSafe st).1 = true then
        gravityFuel n (gravityFailSafe st).2 else (gravityFailSafe st).2)
      cases hmv : (gravityFailSafe st).1 with
      | false =>
          rw [if_neg (by simp)]
          exact settled_gfs st ((settled_iff_gfs st).2 hmv)
      | true =>
          rw [if_pos rfl]
          apply ih
          have := gravPotential_lt st hmv
          omega

theorem gravity_settled (st : GameState) : settled (gravity st) := by
  apply gravityFuel_settled
  have := gravPotential_le st
  have hG : GRAVITYFUEL = HEIGHT * WIDTH * HEIGHT + 1 := rfl
  omega

theorem gravity_of_settled (st : GameState) (h : settled st) :
    gravity st = (gravityFailSafe st).2 := by
  have h1 : gravity st = if (gravityFailSafe st).1 = true then
      gravityFuel (HEIGHT * WIDTH * HEIGHT) (gravityFailSafe st).2
    else (gravityFailSafe st).2 := rfl
  rw [h1, (settled_iff_gfs st).1 h, if_neg (by simp)]

theorem gravityFuel_scalars :
    ∀ (fuel : Nat) (st : GameState),
      (gravityFuel fuel st).score = st.score ∧ (gravityFuel fuel st).level = st.level ∧
        (gravityFuel fuel st).clears = st.clears := by
  intro fuel
  induction fuel with
  | zero => intro st; exact ⟨rfl, rfl, rfl⟩
  | succ n ih =>
      intro st
      have hstep : gravityFuel (n + 1) st =
          if (gravityFailSafe st).1 = true then gravityFuel n (gravityFailSafe st).2
          else (gravityFailSafe st).2 := rfl
      rw [hstep]
      cases hmv : (gravityFailSafe st).1 with
      | false =>
          rw [if_neg (by simp)]
          exact ⟨gravityFailSafe_score st, gravityFailSafe_level st, gravityFailSafe_clears st⟩
      | true =>
          rw [if_pos rfl]
          obtain ⟨h1, h2, h3⟩ := ih (gravityFailSafe st).2
          rw [h1, h2, h3]
          exact ⟨gravityFailSafe_score st, gravityFailSafe_level st, gravityFailSafe_clears st⟩

theorem gravity_scalars (st : GameState) :
    (gravity st).score = st.score ∧ (gravity st).level = st.level ∧
      (gravity st).clears = st.clears :=
  gravityFuel_scalars GRAVITYFUEL st

theorem occCount_gfs_le (st : GameState) :
    occCount (gravityFailSafe st).2 ≤ occCount st := by
  have h : occCount (gravityFailSafe st).2 =
      ((Finset.univ.filter fun p : Pos => st.occ p = true).image (landPos st.occ)).card := by
    unfold occCount
    rw [gfs_occ_filter st]
  rw [h]
  exact le_trans Finset.card_image_le (le_refl _)

theorem occCount_gravityFuel_le :
    ∀ (fuel : Nat) (st : GameState), occCount (gravityFuel fuel st) ≤ occCount st := by
  intro fuel
  induction fuel with
  | zero => intro st; exact le_refl _
  | succ n ih =>
      intro st
      have hstep : gravityFuel (n + 1) st =
          if (gravityFailSafe st).1 = true then gravityFuel n (gravityFailSafe st).2
          else (gravityFailSafe st).2 := rfl
      rw [hstep]
      cases hmv : (gravityFailSafe st).1 with
      | false =>
          rw [if_neg (by simp)]
          exact occCount_gfs_le st
      | true =>
          rw [if_pos rfl]
          exact le_trans (ih (gravityFailSafe st).2) (occCount_gfs_le st)

theorem occCount_gravity_le (st : GameState) : occCount (gravity st) ≤ occCount st :=
  occCount_gravityFuel_le GRAVITYFUEL st

/-- Components only depend on the occupancy grid and the colours of
occupied cells. -/
theorem comp_congr (st st' : GameState) (hocc : st.occ = st'.occ)
    (hcol : ∀ q : Pos, st.occ q = true → st.col q = st'.col q) (p : Pos)
    (hp : st.occ p = true) : comp st p = comp st' p := by
  unfold comp
  have hok : okCell st (st.col p) = okCell st' (st'.col p) := by
    funext q
    unfold okCell
    rw [← hocc, ← hcol p hp]
    cases hq : st.occ q with
    | false => simp
    | true => rw [hcol q hq]
  rw [hok]

theorem bigComps_congr (st st' : GameState) (hocc : st.occ = st'.occ)
    (hcol : ∀ q : Pos, st.occ q = true → st.col q = st'.col q) :
    bigComps st = bigComps st' := by
  unfold bigComps
  have hfil : (Finset.univ.filter fun q : Pos => st.occ q = true ∧ 4 ≤ (comp st q).card) =
      (Finset.univ.filter fun q : Pos => st'.occ q = true ∧ 4 ≤ (comp st' q).card) := by
    ext q
    simp only [Finset.mem_filter, Finset.mem_univ, true_and]
    constructor
    · rintro ⟨h1, h2⟩
      rw [comp_congr st st' hocc hcol q h1] at h2
      exact ⟨by rw [← hocc]; exact h1, h2⟩
    · rintro ⟨h1, h2⟩
      have h1' : st.occ q = true := by rw [hocc]; exact h1
      rw [← comp_congr st st' hocc hcol q h1'] at h2
      exact ⟨h1', h2⟩
  rw [hfil]
  refine Finset.image_congr ?_
  intro q hq
  simp only [Finset.coe_filter, Set.mem_setOf_eq, Finset.mem_univ, true_and] at hq
  exact comp_congr st st' hocc hcol q (by rw [hocc]; exact hq.1)

theorem gravity_settled_eq (st : GameState) (h : settled st) :
    (gravity st).occ = st.occ ∧
      (∀ q : Pos, st.occ q = true → (gravity st).col q = st.col q) := by
  rw [gravity_of_settled st h]
  exact ⟨funext (gfs_occ_of_settled st h), gfs_col_of_settled st h⟩

theorem bigComps_gravity_of_settled (st : GameState) (h : settled st) :
    bigComps (gravity st) = bigComps st := by
  obtain ⟨h1, h2⟩ := gravity_settled_eq st h
  refine bigComps_congr (gravity st) st h1 ?_
  intro q hq
  exact h2 q (by rw [← h1]; exact hq)

theorem bigComps_card_ge (st : GameState) (C : Finset Pos) (h : C ∈ bigComps st) :
    4 ≤ C.card := by
  unfold bigComps at h
  rw [Finset.mem_image] at h
  obtain ⟨q, hq, rfl⟩ := h
  rw [Finset.mem_filter] at hq
  exact hq.2.2

theorem bigAt_exists_of_ne (st : GameState) (h : bigComps st ≠ ∅) :
    ∃ q : Pos, bigAt st q := by
  obtain ⟨C, hC⟩ := Finset.nonempty_iff_ne_empty.2 h
  unfold bigComps at hC
  rw [Finset.mem_image] at hC
  obtain ⟨q, hq, -⟩ := hC
  rw [Finset.mem_filter] at hq
  exact ⟨q, hq.2.1, hq.2.2⟩

/-- With no clearable group, clearGroups clears nothing and returns the
state unchanged. -/
theorem clearGroups_of_no_big (mult : ℚ) (st : GameState) (h : bigComps st = ∅) :
    clearGroups mult st = (0, st) := by
  obtain ⟨ho, hc, hs, ht, hcl, hl⟩ := clearGroups_run mult st
  have hnb : ∀ r : Pos, ¬ bigAt st r := by
    intro r hb
    have hmem : comp st r ∈ bigComps st := by
      unfold bigComps
      exact Finset.mem_image_of_mem _ (Finset.mem_filter.2 ⟨Finset.mem_univ r, hb.1, hb.2⟩)
    rw [h] at hmem
    exact absurd hmem (Finset.not_mem_empty _)
  rw [Prod.ext_iff]
  constructor
  · rw [ht, h]
    simp
  · apply gameStateExt
    · funext r
      rw [ho r, if_neg (hnb r)]
    · funext r
      rw [hc r, if_neg (hnb r)]
    · rw [hs, h]
      simp
    · rw [hl, h]
      simp
    · rw [hcl, h]
      simp

theorem clearGroups_big_empty (mult : ℚ) (st : GameState)
    (h : (clearGroups mult st).1 = 0) : bigComps st = ∅ := by
  obtain ⟨-, -, -, ht, -, -⟩ := clearGroups_run mult st
  rw [ht] at h
  by_contra hne
  obtain ⟨C, hC⟩ := Finset.nonempty_iff_ne_empty.2 hne
  have h4 := bigComps_card_ge st C hC
  have hle : C.card ≤ Finset.sum (bigComps st) (fun D => D.card) :=
    Finset.single_le_sum (fun i _ => Nat.zero_le _) hC
  omega

theorem clear_filter_subset (mult : ℚ) (st : GameState) :
    (Finset.univ.filter fun q : Pos => (clearGroups mult st).2.occ q = true) ⊆
      Finset.univ.filter fun q : Pos => st.occ q = true := by
  obtain ⟨ho, -, -, -, -, -⟩ := clearGroups_run mult st
  intro q hq
  rw [Finset.mem_filter] at hq ⊢
  refine ⟨Finset.mem_univ q, ?_⟩
  have h2 := hq.2
  rw [ho q] at h2
  by_cases hb : bigAt st q
  · rw [if_pos hb] at h2
    exact absurd h2 (by simp)
  · rw [if_neg hb] at h2
    exact h2

theorem occCount_clear_le (mult : ℚ) (st : GameState) :
    occCount (clearGroups mult st).2 ≤ occCount st :=
  Finset.card_le_card (clear_filter_subset mult st)

theorem occCount_clear_lt (mult : ℚ) (st : GameState)
    (h : (clearGroups mult st).1 ≠ 0) :
    occCount (clearGroups mult st).2 < occCount st := by
  obtain ⟨ho, -, -, -, -, -⟩ := clearGroups_run mult st
  have hne : bigComps st ≠ ∅ := fun he => h (by rw [clearGroups_of_no_big mult st he])
  obtain ⟨q, hbq⟩ := bigAt_exists_of_ne st hne
  apply Finset.card_lt_card
  rw [Finset.ssubset_iff_of_subset (clear_filter_subset mult st)]
  refine ⟨q, ?_, ?_⟩
  · rw [Finset.mem_filter]
    exact ⟨Finset.mem_univ q, hbq.1⟩
  · rw [Finset.mem_filter]
    rintro ⟨-, hocc⟩
    rw [ho q, if_pos hbq] at hocc
    exact absurd hocc (by simp)

/-- What the inner cascade loop guarantees when given enough fuel: the
chain never decreases, the returned board has no clearable group left,
its cell count never grows (strictly shrinking when a wave cleared), an
unchanged chain means an unchanged state, and a grown chain means the
returned board is gravity-settled. -/
theorem innerLoop_spec :
    ∀ (fuel chain : Nat) (st : GameState), occCount st < fuel →
      chain ≤ (innerLoop fuel chain st).1 ∧
      bigComps (innerLoop fuel chain st).2 = ∅ ∧
      occCount (innerLoop fuel chain st).2 ≤ occCount st ∧
      ((innerLoop fuel chain st).1 = chain → (innerLoop fuel chain st).2 = st) ∧
      (chain < (innerLoop fuel chain st).1 →
        occCount (innerLoop fuel chain st).2 < occCount st ∧
        settled (innerLoop fuel chain st).2) := by
  intro fuel
  induction fuel with
  | zero => intro chain st h; exact absurd h (Nat.not_lt_zero _)
  | succ n ih =>
      intro chain st h
      have hstep : innerLoop (n + 1) chain st =
          if (clearGroups (1 + (chain : ℚ) / 2) st).1 = 0 then
            (chain, (clearGroups (1 + (chain : ℚ) / 2) st).2)
          else innerLoop n (chain + 1) (gravity (clearGroups (1 + (chain : ℚ) / 2) st).2) :=
        rfl
      by_cases h0 : (clearGroups (1 + (chain : ℚ) / 2) st).1 = 0
      · rw [hstep, if_pos h0]
        have hbig : bigComps st = ∅ := clearGroups_big_empty _ st h0
        have hcg : clearGroups (1 + (chain : ℚ) / 2) st = (0, st) :=
          clearGroups_of_no_big _ st hbig
        rw [hcg]
        exact ⟨le_refl _, hbig, le_refl _, fun _ => rfl,
          fun hc => absurd hc (lt_irrefl _)⟩
      · rw [hstep, if_neg h0]
        have hlt : occCount (clearGroups (1 + (chain : ℚ) / 2) st).2 < occCount st :=
          occCount_clear_lt _ st h0
        have hg : occCount (gravity (clearGroups (1 + (chain : ℚ) / 2) st).2) ≤
            occCount (clearGroups (1 + (chain : ℚ) / 2) st).2 :=
          occCount_gravity_le _
        obtain ⟨ih1, ih2, ih3, ih4, ih5⟩ :=
          ih (chain + 1) (gravity (clearGroups (1 + (chain : ℚ) / 2) st).2) (by omega)
        refine ⟨by omega, ih2, by omega, ?_, ?_⟩
        · intro hc
          rw [hc] at ih1
          exact absurd ih1 (by omega)
        · intro hchain
          refine ⟨by omega, ?_⟩
          rcases eq_or_lt_of_le ih1 with heq | hlt2
          · rw [ih4 heq.symm]
            exact gravity_settled _
          · exact (ih5 hlt2).2

set_option maxRecDepth 4000 in
/-- What the outer cascade loop guarantees when given enough fuel: the
returned board is always gravity-settled, the chain never decreases, a
grown chain means no clearable group is left, and a settled entry
board with no clearable group also leaves none. -/
theorem outerLoop_spec :
    ∀ (fuel chain : Nat) (st : GameState), occCount st + 2 ≤ fuel →
      settled (outerLoop fuel chain st).2 ∧
      chain ≤ (outerLoop fuel chain st).1 ∧
      (chain < (outerLoop fuel chain st).1 → bigComps (outerLoop fuel chain st).2 = ∅) ∧
      (settled st → bigComps st = ∅ → bigComps (outerLoop fuel chain st).2 = ∅) := by
  intro fuel
  induction fuel with
  | zero => intro chain st h; exact absurd h (by omega)
  | succ n ih =>
      intro chain st h
      have hinner : occCount st < INNERFUEL := by
        have := occCount_le st
        have hI : INNERFUEL = HEIGHT * WIDTH + 1 := rfl
        omega
      obtain ⟨i1, i2, i3, i4, i5⟩ := innerLoop_spec INNERFUEL chain st hinner
      have hstep : outerLoop (n + 1) chain st =
          if (innerLoop INNERFUEL chain st).1 = chain then
            ((innerLoop INNERFUEL chain st).1, gravity (innerLoop INNERFUEL chain st).2)
          else outerLoop n (innerLoop INNERFUEL chain st).1
            (gravity (innerLoop INNERFUEL chain st).2) := rfl
      by_cases heq : (innerLoop INNERFUEL chain st).1 = chain
      · rw [hstep, if_pos heq]
        refine ⟨gravity_settled _, by rw [heq], fun hc => ?_, fun hs hb => ?_⟩
        · rw [heq] at hc
          exact absurd hc (lt_irrefl _)
        · rw [i4 heq]
          rw [bigComps_gravity_of_settled st hs]
          exact hb
      · rw [hstep, if_neg heq]
        have hchain : chain < (innerLoop INNERFUEL chain st).1 :=
          lt_of_le_of_ne i1 (Ne.symm heq)
        obtain ⟨hocclt, hset⟩ := i5 hchain
        have hg : occCount (gravity (innerLoop INNERFUEL chain st).2) ≤
            occCount (innerLoop INNERFUEL chain st).2 := occCount_gravity_le _
        obtain ⟨o1, o2, o3, o4⟩ := ih (innerLoop INNERFUEL chain st).1
          (gravity (innerLoop INNERFUEL chain st).2) (by omega)
        have hbg : bigComps (gravity (innerLoop INNERFUEL chain st).2) = ∅ := by
          rw [bigComps_gravity_of_settled _ hset]
          exact i2
        refine ⟨o1, le_trans (le_of_lt hchain) o2, fun _ => ?_, fun _ _ => ?_⟩
        · exact o4 (gravity_settled _) hbg
        · exact o4 (gravity_settled _) hbg

/-! ## The colour-zero invariant (C9) -/

/-- The invariant of the two parallel grids: colour 0 marks exactly the
unoccupied cells. -/
def colourInvariant (st : GameState) : Prop :=
  ∀ r : Pos, st.col r = 0 ↔ st.occ r = false

instance (st : GameState) : Decidable (colourInvariant st) := by
  unfold colourInvariant; infer_instance

theorem initialState_inv : colourInvariant initialState := by
  intro r
  exact ⟨fun _ => rfl, fun _ => rfl⟩

theorem placeStep_inv (b : Block) (bx byy : Int)
    (hb : ∀ y x, b.shape y x ≠ 0 → b.color y x ≠ 0)
    (acc : GameState) (yx : Fin SIZE × Fin SIZE) (h : colourInvariant acc) :
    colourInvariant (placeStep b bx byy acc yx) := by
  unfold placeStep
  by_cases hs : b.shape yx.1 yx.2 ≠ 0
  · rw [if_pos hs]
    split
    · next hin =>
        intro r
        by_cases hr : r = (⟨(byy + (yx.1.val : Int)).toNat, by omega⟩,
            ⟨(bx + (yx.2.val : Int)).toNat, by omega⟩)
        · subst hr
          show upd acc.col _ (b.color yx.1 yx.2) _ = 0 ↔ upd acc.occ _ true _ = false
          rw [upd_same, upd_same]
          constructor
          · intro hc
            exact absurd hc (hb yx.1 yx.2 hs)
          · intro ht
            exact absurd ht (by simp)
        · show upd acc.col _ (b.color yx.1 yx.2) r = 0 ↔ upd acc.occ _ true r = false
          rw [upd_ne _ _ _ _ hr, upd_ne _ _ _ _ hr]
          exact h r
    · next => exact h
  · rw [if_neg hs]
    exact h

theorem placeBlock_inv (st : GameState) (b : Block) (bx byy : Int)
    (hb : ∀ y x, b.shape y x ≠ 0 → b.color y x ≠ 0) (h : colourInvariant st) :
    colourInvariant (placeBlock st b bx byy) := by
  unfold placeBlock
  have H : ∀ (L : List (Fin SIZE × Fin SIZE)) (acc : GameState), colourInvariant acc →
      colourInvariant (L.foldl (placeStep b bx byy) acc) := by
    intro L
    induction L with
    | nil => intro acc ha; exact ha
    | cons p rest ih =>
        intro acc ha
        exact ih _ (placeStep_inv b bx byy hb acc p ha)
  exact H localCells st h

theorem clearGroups_inv (mult : ℚ) (st : GameState) (h : colourInvariant st) :
    colourInvariant (clearGroups mult st).2 := by
  obtain ⟨ho, hc, -, -, -, -⟩ := clearGroups_run mult st
  intro r
  rw [ho r, hc r]
  by_cases hb : bigAt st r
  · rw [if_pos hb, if_pos hb]
    exact ⟨fun _ => rfl, fun _ => rfl⟩
  · rw [if_neg hb, if_neg hb]
    exact h r

theorem gravityFailSafe_inv (st : GameState) (h : colourInvariant st) :
    colourInvariant (gravityFailSafe st).2 := by
  obtain ⟨-, -, hc, hc0⟩ := gravityFailSafe_spec st
  intro r
  cases hr : (gravityFailSafe st).2.occ r with
  | false => exact iff_of_true (hc0 r hr) rfl
  | true =>
      obtain ⟨s, h1, h2, h3⟩ := hc r hr
      rw [h3]
      refine iff_of_false ?_ (by simp)
      intro he
      have := (h s).1 he
      rw [h1] at this
      exact absurd this (by simp)

theorem gravityFuel_inv :
    ∀ (fuel : Nat) (st : GameState), colourInvariant st →
      colourInvariant (gravityFuel fuel st) := by
  intro fuel
  induction fuel with
  | zero => intro st h; exact h
  | succ n ih =>
      intro st h
      have hstep : gravityFuel (n + 1) st =
          if (gravityFailSafe st).1 = true then gravityFuel n (gravityFailSafe st).2
          else (gravityFailSafe st).2 := rfl
      rw [hstep]
      cases hmv : (gravityFailSafe st).1 with
      | false =>
          rw [if_neg (by simp)]
          exact gravityFailSafe_inv st h
      | true =>
          rw [if_pos rfl]
          exact ih _ (gravityFailSafe_inv st h)

theorem gravity_inv (st : GameState) (h : colourInvariant st) :
    colourInvariant (gravity st) :=
  gravityFuel_inv GRAVITYFUEL st h

set_option maxRecDepth 4000 in
theorem innerLoop_inv :
    ∀ (fuel chain : Nat) (st : GameState), colourInvariant st →
      colourInvariant (innerLoop fuel chain st).2 := by
  intro fuel
  induction fuel with
  | zero => intro chain st h; exact h
  | succ n ih =>
      intro chain st h
      have hstep : innerLoop (n + 1) chain st =
          if (clearGroups (1 + (chain : ℚ) / 2) st).1 = 0 then
            (chain, (clearGroups (1 + (chain : ℚ) / 2) st).2)
          else innerLoop n (chain + 1) (gravity (clearGroups (1 + (chain : ℚ) / 2) st).2) :=
        rfl
      rw [hstep]
      by_cases h0 : (clearGroups (1 + (chain : ℚ) / 2) st).1 = 0
      · rw [if_pos h0]
        exact clearGroups_inv _ st h
      · rw [if_neg h0]
        exact ih _ _ (gravity_inv _ (clearGroups_inv _ st h))

set_option maxRecDepth 4000 in
theorem outerLoop_inv :
    ∀ (fuel chain : Nat) (st : GameState), colourInvariant st →
      colourInvariant (outerLoop fuel chain st).2 := by
  intro fuel
  induction fuel with
  | zero => intro chain st h; exact h
  | succ n ih =>
      intro chain st h
      have hstep : outerLoop (n + 1) chain st =
          if (innerLoop INNERFUEL chain st).1 = chain then
            ((innerLoop INNERFUEL chain st).1, gravity (innerLoop INNERFUEL chain st).2)
          else outerLoop n (innerLoop INNERFUEL chain st).1
            (gravity (innerLoop INNERFUEL chain st).2) := rfl
      rw [hstep]
      by_cases heq : (innerLoop INNERFUEL chain st).1 = chain
      · rw [if_pos heq]
        exact gravity_inv _ (innerLoop_inv INNERFUEL chain st h)
      · rw [if_neg heq]
        exact ih _ _ (gravity_inv _ (innerLoop_inv INNERFUEL chain st h))

/-- On a settled board satisfying the colour invariant, gravity() is
the identity. -/
theorem gravity_id (st : GameState) (hs : settled st) (hc : colourInvariant st) :
    gravity st = st := by
  rw [gravity_of_settled st hs]
  apply gameStateExt
  · exact funext (gfs_occ_of_settled st hs)
  · funext q
    cases hq : st.occ q with
    | true => exact gfs_col_of_settled st hs q hq
    | false =>
        have h0 : (gravityFailSafe st).2.occ q = false := by
          rw [gfs_occ_of_settled st hs q]; exact hq
        rw [(gravityFailSafe_spec st).2.2.2 q h0]
        exact ((hc q).2 hq).symm
  · exact gravityFailSafe_score st
  · exact gravityFailSafe_level st
  · exact gravityFailSafe_clears st

/-! ## Stability after lock_and_cascade (C2) -/

set_option maxRecDepth 4000 in
/-- C2 (amended): when lock_and_cascade returns, the board is always
gravity-settled, so the driving loop's follow-up gravity() call leaves
the state unchanged (the entry state satisfying the colour invariant
and the locked piece having nonzero colours on its occupied cells); and
whenever the lock produced at least one clearing wave (chain >= 1), no
clearable group remains either, so the follow-up clearGroups(1) call
clears nothing and changes nothing.  The unamended claim - that no
clearable group ever remains - is refuted by c2_counterexample: after a
lock whose first clearGroups pass clears nothing, the trailing gravity()
of the cascade can assemble a fresh group of four that is left on the
board. -/
theorem c2_cascade_stability (st : GameState) (cur : Block) (cx cy : Int)
    (nxt newNext : Block) (hc : colourInvariant st)
    (hb : ∀ y x, cur.shape y x ≠ 0 → cur.color y x ≠ 0) :
    settled (lockAndCascade st cur cx cy nxt newNext).state ∧
    gravity (lockAndCascade st cur cx cy nxt newNext).state =
      (lockAndCascade st cur cx cy nxt newNext).state ∧
    (1 ≤ (lockAndCascade st cur cx cy nxt newNext).chain →
      bigComps (lockAndCascade st cur cx cy nxt newNext).state = ∅ ∧
      clearGroups 1 (lockAndCascade st cur cx cy nxt newNext).state =
        (0, (lockAndCascade st cur cx cy nxt newNext).state)) := by
  have hsEq : (lockAndCascade st cur cx cy nxt newNext).state =
      (outerLoop OUTERFUEL 0 (placeBlock st cur cx cy)).2 := rfl
  have hcnEq : (lockAndCascade st cur cx cy nxt newNext).chain =
      (outerLoop OUTERFUEL 0 (placeBlock st cur cx cy)).1 := rfl
  obtain ⟨o1, o2, o3, o4⟩ := outerLoop_spec OUTERFUEL 0 (placeBlock st cur cx cy) (by
    have := occCount_le (placeBlock st cur cx cy)
    have hO : OUTERFUEL = HEIGHT * WIDTH + 2 := rfl
    omega)
  have hinv : colourInvariant (outerLoop OUTERFUEL 0 (placeBlock st cur cx cy)).2 :=
    outerLoop_inv OUTERFUEL 0 (placeBlock st cur cx cy) (placeBlock_inv st cur cx cy hb hc)
  rw [hsEq, hcnEq]
  refine ⟨o1, gravity_id _ o1 hinv, fun hch => ?_⟩
  have hbig := o3 hch
  exact ⟨hbig, clearGroups_of_no_big 1 _ hbig⟩


/-- One unfolding step of the inner cascade loop. -/
theorem innerLoop_succ (n chain : Nat) (st : GameState) :
    innerLoop (n + 1) chain st =
      if (clearGroups (1 + (chain : ℚ) / 2) st).1 = 0 then
        (chain, (clearGroups (1 + (chain : ℚ) / 2) st).2)
      else innerLoop n (chain + 1) (gravity (clearGroups (1 + (chain : ℚ) / 2) st).2) := rfl

set_option maxRecDepth 4000 in
/-- One unfolding step of the outer cascade loop. -/
theorem outerLoop_succ (n chain : Nat) (st : GameState) :
    outerLoop (n + 1) chain st =
      if (innerLoop INNERFUEL chain st).1 = chain then
        ((innerLoop INNERFUEL chain st).1, gravity (innerLoop INNERFUEL chain st).2)
      else outerLoop n (innerLoop INNERFUEL chain st).1
        (gravity (innerLoop INNERFUEL chain st).2) := rfl

theorem INNERFUEL_succ : INNERFUEL = 200 + 1 := rfl

theorem OUTERFUEL_succ : OUTERFUEL = 201 + 1 := rfl

/-- A gravity() call whose first pass moves nothing returns that pass's
state. -/
theorem gravity_one (st b : GameState) (h : gravityFailSafe st = (false, b)) :
    gravity st = b := by
  have hstep : gravity st = if (gravityFailSafe st).1 = true then
      gravityFuel (HEIGHT * WIDTH * HEIGHT) (gravityFailSafe st).2
    else (gravityFailSafe st).2 := rfl
  rw [hstep, h]
  show (if (false = true) then gravityFuel (HEIGHT * WIDTH * HEIGHT) b else b) = b
  rw [if_neg (by simp)]

/-- A gravity() call whose first pass moves something and whose second
pass moves nothing returns the second pass's state. -/
theorem gravity_two (st a b : GameState) (h1 : gravityFailSafe st = (true, a))
    (h2 : gravityFailSafe a = (false, b)) : gravity st = b := by
  have hstep : gravity st = if (gravityFailSafe st).1 = true then
      gravityFuel (HEIGHT * WIDTH * HEIGHT) (gravityFailSafe st).2
    else (gravityFailSafe st).2 := rfl
  rw [hstep, h1]
  show gravityFuel (HEIGHT * WIDTH * HEIGHT) a = b
  have h3 : gravityFuel (HEIGHT * WIDTH * HEIGHT) a =
      if (gravityFailSafe a).1 = true then gravityFuel 3999 (gravityFailSafe a).2
      else (gravityFailSafe a).2 := rfl
  rw [h3, h2]
  show (if (false = true) then gravityFuel 3999 b else b) = b
  rw [if_neg (by simp)]

/-- A board with a three-high colour-1 column at the far left over a
one-row gap cell, and a full four-high stack of alternating colours 2
and 3 in the second column. -/
def exB : GameState :=
  { occ := fun p => decide ((p.1.val = 17 ∨ p.1.val = 18 ∨ p.1.val = 19) ∧ p.2.val = 0) ||
      decide (16 ≤ p.1.val ∧ p.2.val = 1),
    col := fun p =>
      if (p.1.val = 17 ∨ p.1.val = 18 ∨ p.1.val = 19) ∧ p.2.val = 0 then 1
      else if 16 ≤ p.1.val ∧ p.2.val = 1 then (if p.1.val % 2 = 0 then 2 else 3) else 0,
    score := 0, level := 1, clears := 0 }

/-- A horizontal domino in the middle row of the 3x3 matrix, colours 1
and 4. -/
def horiz : Block :=
  { shape := fun y x => if y.val = 1 ∧ (x.val = 1 ∨ x.val = 2) then 1 else 0,
    color := fun y x =>
      if y.val = 1 ∧ x.val = 1 then 1 else if y.val = 1 ∧ x.val = 2 then 4 else 0 }

/-- exB with the domino locked at rows 15 of columns 0 and 1. -/
def exB2 : GameState :=
  { occ := fun p =>
      decide ((p.1.val = 15 ∨ p.1.val = 17 ∨ p.1.val = 18 ∨ p.1.val = 19) ∧ p.2.val = 0) ||
      decide (15 ≤ p.1.val ∧ p.2.val = 1),
    col := fun p =>
      if (p.1.val = 15 ∨ p.1.val = 17 ∨ p.1.val = 18 ∨ p.1.val = 19) ∧ p.2.val = 0 then 1
      else if p.1.val = 15 ∧ p.2.val = 1 then 4
      else if 16 ≤ p.1.val ∧ p.2.val = 1 then (if p.1.val % 2 = 0 then 2 else 3) else 0,
    score := 0, level := 1, clears := 0 }

/-- exB2 after one gravity pass: the floating colour-1 cell joins the
triple, forming a column of four. -/
def exB3 : GameState :=
  { occ := fun p => decide (16 ≤ p.1.val ∧ p.2.val = 0) ||
      decide (15 ≤ p.1.val ∧ p.2.val = 1),
    col := fun p =>
      if 16 ≤ p.1.val ∧ p.2.val = 0 then 1
      else if p.1.val = 15 ∧ p.2.val = 1 then 4
      else if 16 ≤ p.1.val ∧ p.2.val = 1 then (if p.1.val % 2 = 0 then 2 else 3) else 0,
    score := 0, level := 1, clears := 0 }

set_option maxRecDepth 100000 in
/-- Counterexample to C2 as stated: locking the (1,4) domino across
columns 0 and 1 of exB drops a colour-1 cell onto the gap above the
colour-1 triple; the first clearGroups pass clears nothing (the four
colour-1 cells are not yet connected), so the cascade ends with chain
0, and only the trailing gravity() then connects them - lock_and_cascade
returns without the game-over branch, yet its board still holds a
clearable group of four, which the driving loop's follow-up
clearGroups(1) call removes. -/
theorem c2_counterexample :
    (lockAndCascade exB horiz (-1) 14 (makeBlock 2 3) (makeBlock 2 3)).gameOver = false ∧
    (lockAndCascade exB horiz (-1) 14 (makeBlock 2 3) (makeBlock 2 3)).chain = 0 ∧
    bigComps (lockAndCascade exB horiz (-1) 14 (makeBlock 2 3) (makeBlock 2 3)).state ≠ ∅ ∧
    (clearGroups 1 (lockAndCascade exB horiz (-1) 14 (makeBlock 2 3) (makeBlock 2 3)).state).1
      = 4 := by
  have hplace : placeBlock exB horiz (-1) 14 = exB2 := by decide
  have hbig2 : bigComps exB2 = ∅ := by decide
  have hin : innerLoop INNERFUEL 0 exB2 = (0, exB2) := by
    rw [INNERFUEL_succ, innerLoop_succ, clearGroups_of_no_big (1 + ((0 : Nat) : ℚ) / 2) exB2 hbig2]
    rfl
  have hgfs1 : gravityFailSafe exB2 = (true, exB3) := by decide
  have hgfs2 : gravityFailSafe exB3 = (false, exB3) := by decide
  have hgr : gravity exB2 = exB3 := gravity_two exB2 exB3 exB3 hgfs1 hgfs2
  have hout : outerLoop OUTERFUEL 0 exB2 = (0, exB3) := by
    rw [OUTERFUEL_succ, outerLoop_succ, hin]
    show (0, gravity exB2) = (0, exB3)
    rw [hgr]
  have hstate : (lockAndCascade exB horiz (-1) 14 (makeBlock 2 3) (makeBlock 2 3)).state =
      exB3 := by
    have hsEq : (lockAndCascade exB horiz (-1) 14 (makeBlock 2 3) (makeBlock 2 3)).state =
        (outerLoop OUTERFUEL 0 (placeBlock exB horiz (-1) 14)).2 := rfl
    rw [hsEq, hplace, hout]
  have hchain : (lockAndCascade exB horiz (-1) 14 (makeBlock 2 3) (makeBlock 2 3)).chain =
      0 := by
    have hcEq : (lockAndCascade exB horiz (-1) 14 (makeBlock 2 3) (makeBlock 2 3)).chain =
        (outerLoop OUTERFUEL 0 (placeBlock exB horiz (-1) 14)).1 := rfl
    rw [hcEq, hplace, hout]
  have hgo : (lockAndCascade exB horiz (-1) 14 (makeBlock 2 3) (makeBlock 2 3)).gameOver =
      checkCollision (outerLoop OUTERFUEL 0 (placeBlock exB horiz (-1) 14)).2.occ
        (makeBlock 2 3) ((WIDTH : Int) / 2 - 1) 0 := rfl
  refine ⟨?_, hchain, ?_, ?_⟩
  · rw [hgo, hplace, hout]
    show checkCollision exB3.occ (makeBlock 2 3) ((WIDTH : Int) / 2 - 1) 0 = false
    decide
  · rw [hstate]
    decide
  · rw [hstate]
    decide

/-- A board with a three-high colour-1 column in column 2. -/
def exW : GameState :=
  { occ := fun p => decide (17 ≤ p.1.val ∧ p.2.val = 2),
    col := fun p => if 17 ≤ p.1.val ∧ p.2.val = 2 then 1 else 0,
    score := 0, level := 1, clears := 0 }

/-- A vertical domino with both cells colour 1. -/
def dom : Block := makeBlock 1 1

/-- exW with the domino locked on top of the column: five colour-1
cells in a vertical line. -/
def exW2 : GameState :=
  { occ := fun p => decide (15 ≤ p.1.val ∧ p.2.val = 2),
    col := fun p => if 15 ≤ p.1.val ∧ p.2.val = 2 then 1 else 0,
    score := 0, level := 1, clears := 0 }

/-- The five-cell colour-1 group of exW2. -/
def exWg : Finset Pos :=
  {(⟨15, by decide⟩, ⟨2, by decide⟩), (⟨16, by decide⟩, ⟨2, by decide⟩),
   (⟨17, by decide⟩, ⟨2, by decide⟩), (⟨18, by decide⟩, ⟨2, by decide⟩),
   (⟨19, by decide⟩, ⟨2, by decide⟩)}

/-- The board after the five-group clears: empty, 500 points, one
cleared group. -/
def exWc : GameState :=
  { occ := fun _ => false, col := fun _ => 0, score := 500, level := 1, clears := 1 }

set_option maxRecDepth 100000 in
theorem exW_place : placeBlock exW dom 1 15 = exW2 := by decide

set_option maxRecDepth 100000 in
theorem exW2_bigComps : bigComps exW2 = {exWg} := by decide

set_option maxRecDepth 100000 in
theorem exW2_clear : clearGroups (1 + ((0 : Nat) : ℚ) / 2) exW2 = (5, exWc) := by
  obtain ⟨-, -, hs, ht, -, -⟩ := clearGroups_run (1 + ((0 : Nat) : ℚ) / 2) exW2
  rw [Prod.ext_iff]
  refine ⟨?_, gameStateExt _ _ (by decide) (by decide) ?_ (by decide) (by decide)⟩
  · rw [ht, exW2_bigComps]
    decide
  · rw [hs, exW2_bigComps, Finset.sum_singleton]
    have hc5 : exWg.card = 5 := by decide
    rw [hc5]
    have hct : ctrunc (((5 : Nat) : ℚ) * 100 * (1 + ((0 : Nat) : ℚ) / 2)) = 500 := by
      rw [ctrunc_eq_floor (((5 : Nat) : ℚ) * 100 * (1 + ((0 : Nat) : ℚ) / 2)) (by positivity),
        floor_chain_mult 5 0]
      decide
    rw [hct]
    decide

set_option maxRecDepth 100000 in
theorem exWc_bigComps : bigComps exWc = ∅ := by decide

set_option maxRecDepth 100000 in
theorem exWc_gfs : gravityFailSafe exWc = (false, exWc) := by decide

theorem exWc_gravity : gravity exWc = exWc := gravity_one exWc exWc exWc_gfs

set_option maxRecDepth 100000 in
theorem exWc_inner1 : innerLoop INNERFUEL 1 exWc = (1, exWc) := by
  rw [INNERFUEL_succ, innerLoop_succ,
    clearGroups_of_no_big (1 + ((1 : Nat) : ℚ) / 2) exWc exWc_bigComps]
  rw [if_pos (by decide : ((0 : Nat), exWc).1 = 0)]

set_option maxRecDepth 100000 in
theorem exW2_inner0 : innerLoop INNERFUEL 0 exW2 = (1, exWc) := by
  rw [INNERFUEL_succ, innerLoop_succ, exW2_clear]
  rw [if_neg (by decide : ¬ ((5 : Nat), exWc).1 = 0)]
  have h01 : (0 : Nat) + 1 = 1 := rfl
  have hpr5 : ((5 : Nat), exWc).2 = exWc := rfl
  rw [h01, hpr5, exWc_gravity]
  have h200 : (200 : Nat) = 199 + 1 := rfl
  rw [h200, innerLoop_succ,
    clearGroups_of_no_big (1 + ((1 : Nat) : ℚ) / 2) exWc exWc_bigComps]
  rw [if_pos (by decide : ((0 : Nat), exWc).1 = 0)]

set_option maxRecDepth 100000 in
theorem exW2_outer : outerLoop OUTERFUEL 0 exW2 = (1, exWc) := by
  rw [OUTERFUEL_succ, outerLoop_succ, exW2_inner0]
  rw [if_neg (by decide : ¬ ((1 : Nat), exWc).1 = 0)]
  have hpr1 : ((1 : Nat), exWc).1 = 1 := rfl
  have hpr2 : ((1 : Nat), exWc).2 = exWc := rfl
  rw [hpr1, hpr2, exWc_gravity]
  have h201 : (201 : Nat) = 200 + 1 := rfl
  rw [h201, outerLoop_succ, exWc_inner1]
  rw [if_pos (by decide : ((1 : Nat), exWc).1 = 1)]
  rw [hpr1, hpr2, exWc_gravity]

set_option maxRecDepth 100000 in
theorem exW_chain : 1 ≤ (lockAndCascade exW dom 1 15 dom dom).chain := by
  have hcEq : (lockAndCascade exW dom 1 15 dom dom).chain =
      (outerLoop OUTERFUEL 0 (placeBlock exW dom 1 15)).1 := rfl
  rw [hcEq, exW_place, exW2_outer]

set_option maxRecDepth 100000 in
theorem c2_witness :
    colourInvariant exW ∧ (∀ y x, dom.shape y x ≠ 0 → dom.color y x ≠ 0) ∧
    1 ≤ (lockAndCascade exW dom 1 15 dom dom).chain ∧
    settled (lockAndCascade exW dom 1 15 dom dom).state ∧
    bigComps (lockAndCascade exW dom 1 15 dom dom).state = ∅ ∧
    clearGroups 1 (lockAndCascade exW dom 1 15 dom dom).state =
      (0, (lockAndCascade exW dom 1 15 dom dom).state) := by
  obtain ⟨h1, h2, h3⟩ := c2_cascade_stability exW dom 1 15 dom dom (by decide) (by decide)
  obtain ⟨h4, h5⟩ := h3 exW_chain
  exact ⟨by decide, by decide, exW_chain, h1, h4, h5⟩

/-! ## The colour invariant claim (C9) -/

/-- C9: colour 0 marks exactly the unoccupied cells.  The invariant
holds for the zero-initialised globals and is preserved by placeBlock
(for a piece whose occupied cells carry nonzero colours), by a
clearGroups pass, by a single gravityFailSafe pass, and by a full
gravity() call. -/
theorem c9_colour_invariant (st : GameState) (b : Block) (bx byy : Int) (mult : ℚ)
    (hb : ∀ y x, b.shape y x ≠ 0 → b.color y x ≠ 0) (h : colourInvariant st) :
    colourInvariant initialState ∧
    colourInvariant (placeBlock st b bx byy) ∧
    colourInvariant (clearGroups mult st).2 ∧
    colourInvariant (gravityFailSafe st).2 ∧
    colourInvariant (gravity st) :=
  ⟨initialState_inv, placeBlock_inv st b bx byy hb h, clearGroups_inv mult st h,
   gravityFailSafe_inv st h, gravity_inv st h⟩

set_option maxRecDepth 100000 in
theorem c9_witness :
    (∀ y x, dom.shape y x ≠ 0 → dom.color y x ≠ 0) ∧ colourInvariant exW ∧
    colourInvariant (placeBlock exW dom 1 15) ∧ colourInvariant (gravity exW) :=
  ⟨by decide, by decide,
   (c9_colour_invariant exW dom 1 15 1 (by decide) (by decide)).2.1,
   (c9_colour_invariant exW dom 1 15 1 (by decide) (by decide)).2.2.2.2⟩
